import Mathlib

/-!
A shallow embedding of the glitter literate-programming tool (the Go
`main` package): fragment-name canonicalisation, block finalisation, the
tangle block store and reference expander, and the weave fragment-graph
bookkeeping.  Strings are modelled as lists of Unicode code points
(`Str`), matching Go's rune-level view of its UTF-8 strings.
-/

namespace Glitter

/-- Strings as lists of code points. -/
abbrev Str := List Char

/-- Coerce a Lean string literal to `Str`. -/
def str (s : String) : Str := s.data

/-- The character class matched by `\s` in Go's regexp package:
`[\t\n\f\r ]`. -/
def goSpace (c : Char) : Bool :=
  c.toNat = 0x20 || c.toNat = 0x9 || c.toNat = 0xa || c.toNat = 0xc ||
  c.toNat = 0xd

/-- Go's `unicode.IsSpace`: the Unicode White_Space property (complete
rune list). -/
def uSpace (c : Char) : Bool :=
  c.toNat = 0x20 || c.toNat = 0x9 || c.toNat = 0xa || c.toNat = 0xb ||
  c.toNat = 0xc || c.toNat = 0xd || c.toNat = 0x85 || c.toNat = 0xa0 ||
  c.toNat = 0x1680 || (0x2000 ≤ c.toNat && c.toNat ≤ 0x200a) ||
  c.toNat = 0x2028 || c.toNat = 0x2029 || c.toNat = 0x202f ||
  c.toNat = 0x205f || c.toNat = 0x3000

theorem goSpace_uSpace {c : Char} (h : uSpace c = false) : goSpace c = false := by
  simp only [goSpace, uSpace, Bool.or_eq_false_iff, decide_eq_false_iff_not,
    Bool.and_eq_false_iff] at h ⊢
  omega

/-- Go's `strings.TrimRightFunc(·, unicode.IsSpace)`: remove the maximal
all-white-space suffix. -/
def trimRight : Str → Str
  | [] => []
  | c :: rest =>
      match trimRight rest with
      | [] => if uSpace c then [] else [c]
      | r => c :: r

/-- Go's `strings.TrimSpace`. -/
def trimSpace (l : Str) : Str := trimRight (l.dropWhile uSpace)

/-- One pass of `spaceRegexp.ReplaceAllString(·, " ")`: every maximal run
of `\s` characters becomes a single space.  `inRun` records whether the
previous character belonged to a run. -/
def collapseAux : Bool → Str → Str
  | _, [] => []
  | inRun, c :: rest =>
      if goSpace c then
        if inRun then collapseAux true rest else ' ' :: collapseAux true rest
      else c :: collapseAux false rest

def collapseSpaces (l : Str) : Str := collapseAux false l

/-- `replaceNoOpChars`: every run of the no-op character `#` is replaced
by a run one character shorter (`escapeRegex.ReplaceAllStringFunc` with
`s[1:]`).  `inRun` records whether the previous character was a `#`. -/
def noOpAux : Bool → Str → Str
  | _, [] => []
  | inRun, c :: rest =>
      if c = '#' then
        if inRun then '#' :: noOpAux true rest else noOpAux true rest
      else c :: noOpAux false rest

def replaceNoOpChars (l : Str) : Str := noOpAux false l

/-- Per-rune lowercasing as performed by `strings.ToLower`, given here on
the ASCII range (identity elsewhere; every name in this development is
ASCII). -/
def goToLower (c : Char) : Char :=
  if 65 ≤ c.toNat ∧ c.toNat ≤ 90 then Char.ofNat (c.toNat + 32) else c

/-- `topLevelStart` (`^\s*\*`): the name starts with `*` after optional
`\s` characters. -/
def isTopLevelName (l : Str) : Bool :=
  (l.dropWhile goSpace).head? == some '*'

/-- `canonicalCodeName`: trim outer white space, collapse internal runs
to one space, lowercase unless the name is top-level, then apply the
no-op-character pass. -/
def canonicalCodeName (name : Str) : Str :=
  let n := collapseSpaces (trimSpace name)
  let n' := if isTopLevelName n then n else n.map goToLower
  replaceNoOpChars n'

/-! ### Unfolding equations for the scanning passes -/

theorem collapseAux_cons_space_true {a : Char} {t : Str} (hs : goSpace a = true) :
    collapseAux true (a :: t) = collapseAux true t := by
  simp [collapseAux, hs]

theorem collapseAux_cons_space_false {a : Char} {t : Str} (hs : goSpace a = true) :
    collapseAux false (a :: t) = ' ' :: collapseAux true t := by
  simp [collapseAux, hs]

theorem collapseAux_cons_not_space {a : Char} {t : Str} (hs : goSpace a = false)
    (b : Bool) : collapseAux b (a :: t) = a :: collapseAux false t := by
  cases b <;> simp [collapseAux, hs]

theorem noOpAux_cons_not_hash {a : Char} {t : Str} (h : ¬ a = '#') (b : Bool) :
    noOpAux b (a :: t) = a :: noOpAux false t := by
  cases b <;> simp [noOpAux, h]

theorem getLast?_cons_of_ne_nil {α : Type} {a : α} {l : List α} (h : l ≠ []) :
    (a :: l).getLast? = l.getLast? := by
  cases l with
  | nil => exact absurd rfl h
  | cons b t => exact List.getLast?_cons_cons

/-! ### Character-level facts about `goToLower` -/

theorem toNat_goToLower_upper {c : Char} (h : 65 ≤ c.toNat ∧ c.toNat ≤ 90) :
    (goToLower c).toNat = c.toNat + 32 := by
  unfold goToLower
  rw [if_pos h]
  unfold Char.ofNat
  rw [dif_pos (Or.inl (by omega))]
  rfl

theorem goToLower_eq_self {c : Char} (h : ¬ (65 ≤ c.toNat ∧ c.toNat ≤ 90)) :
    goToLower c = c := by
  unfold goToLower
  rw [if_neg h]

theorem charEqOfToNat {a b : Char} (h : a.toNat = b.toNat) : a = b :=
  Char.eq_of_val_eq (UInt32.ext h)

theorem goSpace_goToLower (c : Char) : goSpace (goToLower c) = goSpace c := by
  by_cases h : 65 ≤ c.toNat ∧ c.toNat ≤ 90
  · have h1 := toNat_goToLower_upper h
    have e1 : goSpace (goToLower c) = false := by
      simp only [goSpace, Bool.or_eq_false_iff, decide_eq_false_iff_not]
      omega
    have e2 : goSpace c = false := by
      simp only [goSpace, Bool.or_eq_false_iff, decide_eq_false_iff_not]
      omega
    rw [e1, e2]
  · rw [goToLower_eq_self h]

theorem uSpace_goToLower (c : Char) : uSpace (goToLower c) = uSpace c := by
  by_cases h : 65 ≤ c.toNat ∧ c.toNat ≤ 90
  · have h1 := toNat_goToLower_upper h
    have e1 : uSpace (goToLower c) = false := by
      simp only [uSpace, Bool.or_eq_false_iff, decide_eq_false_iff_not,
        Bool.and_eq_false_iff]
      omega
    have e2 : uSpace c = false := by
      simp only [uSpace, Bool.or_eq_false_iff, decide_eq_false_iff_not,
        Bool.and_eq_false_iff]
      omega
    rw [e1, e2]
  · rw [goToLower_eq_self h]

theorem goToLower_ne_hash {c : Char} (h : c ≠ '#') : goToLower c ≠ '#' := by
  by_cases hr : 65 ≤ c.toNat ∧ c.toNat ≤ 90
  · intro he
    have h1 := toNat_goToLower_upper hr
    rw [he] at h1
    have h2 : ('#').toNat = 35 := rfl
    omega
  · rw [goToLower_eq_self hr]; exact h

theorem goToLower_eq_star {c : Char} : (goToLower c = '*') ↔ (c = '*') := by
  constructor
  · intro he
    by_cases hr : 65 ≤ c.toNat ∧ c.toNat ≤ 90
    · have h1 := toNat_goToLower_upper hr
      rw [he] at h1
      have h2 : ('*').toNat = 42 := rfl
      omega
    · rwa [goToLower_eq_self hr] at he
  · intro he
    subst he
    rfl

theorem goToLower_idem (c : Char) : goToLower (goToLower c) = goToLower c := by
  by_cases hr : 65 ≤ c.toNat ∧ c.toNat ≤ 90
  · have h1 := toNat_goToLower_upper hr
    exact goToLower_eq_self (by omega)
  · rw [goToLower_eq_self hr, goToLower_eq_self hr]

/-! ### The no-op-character pass is the identity on `#`-free strings -/

theorem noOpAux_of_not_mem : ∀ (b : Bool) (l : Str), '#' ∉ l → noOpAux b l = l := by
  intro b l
  induction l generalizing b with
  | nil => intro _; rfl
  | cons c rest ih =>
      intro h
      have hc : ¬ c = '#' := by
        intro hc; exact h (hc ▸ List.mem_cons_self c rest)
      have ht : '#' ∉ rest := fun hm => h (List.mem_cons_of_mem c hm)
      rw [noOpAux_cons_not_hash hc b, ih false ht]

theorem replaceNoOpChars_of_not_mem {l : Str} (h : '#' ∉ l) :
    replaceNoOpChars l = l := noOpAux_of_not_mem false l h

/-! ### Membership is preserved down the canonicalisation pipeline -/

theorem not_mem_collapseAux {x : Char} (hx : x ≠ ' ') :
    ∀ (b : Bool) (l : Str), x ∉ l → x ∉ collapseAux b l := by
  intro b l
  induction l generalizing b with
  | nil => intro _ h; simpa [collapseAux] using h
  | cons c rest ih =>
      intro h
      have hc : x ≠ c := fun hc => h (hc ▸ List.mem_cons_self c rest)
      have ht : x ∉ rest := fun hm => h (List.mem_cons_of_mem c hm)
      by_cases hs : goSpace c = true
      · cases b with
        | true =>
            rw [collapseAux_cons_space_true hs]
            exact ih true ht
        | false =>
            rw [collapseAux_cons_space_false hs]
            intro hmem
            rcases List.mem_cons.mp hmem with he | hm
            · exact hx he
            · exact ih true ht hm
      · rw [collapseAux_cons_not_space (by simpa using hs) b]
        intro hmem
        rcases List.mem_cons.mp hmem with he | hm
        · exact hc he
        · exact ih false ht hm

theorem not_mem_trimRight {x : Char} : ∀ l : Str, x ∉ l → x ∉ trimRight l := by
  intro l
  induction l with
  | nil => intro h; simpa [trimRight] using h
  | cons c rest ih =>
      intro h
      have hc : x ≠ c := fun hc => h (hc ▸ List.mem_cons_self c rest)
      have ht : x ∉ rest := fun hm => h (List.mem_cons_of_mem c hm)
      unfold trimRight
      cases htr : trimRight rest with
      | nil =>
          by_cases hu : uSpace c = true <;> simp [hu, hc]
      | cons r rs =>
          intro hmem
          rcases List.mem_cons.mp hmem with he | hm
          · exact hc he
          · exact ih ht (htr ▸ hm)

theorem not_mem_trimSpace {x : Char} {l : Str} (h : x ∉ l) : x ∉ trimSpace l :=
  not_mem_trimRight _ fun hm => h ((List.dropWhile_sublist uSpace).mem hm)

theorem not_mem_map_goToLower {l : Str} (h : '#' ∉ l) : '#' ∉ l.map goToLower := by
  intro hm
  rcases List.mem_map.mp hm with ⟨a, ha, hfa⟩
  exact goToLower_ne_hash (fun he => h (he ▸ ha)) hfa

/-! ### Boundary characters after trimming and collapsing -/

theorem head?_dropWhile_false {p : Char → Bool} :
    ∀ {l : Str} {c : Char}, (l.dropWhile p).head? = some c → p c = false := by
  intro l
  induction l with
  | nil => intro c h; simp [List.dropWhile] at h
  | cons a rest ih =>
      intro c h
      by_cases hp : p a = true
      · rw [List.dropWhile_cons_of_pos hp] at h; exact ih h
      · rw [List.dropWhile_cons_of_neg hp] at h
        simp only [List.head?_cons, Option.some.injEq] at h
        simpa [← h] using hp

theorem head?_trimRight : ∀ {l : Str} {c : Char},
    (trimRight l).head? = some c → l.head? = some c := by
  intro l
  cases l with
  | nil => intro c h; simp [trimRight] at h
  | cons a rest =>
      intro c h
      unfold trimRight at h
      cases htr : trimRight rest with
      | nil =>
          rw [htr] at h
          by_cases hu : uSpace a = true <;> simp [hu] at h <;> simp [h]
      | cons r rs =>
          rw [htr] at h
          simp only [List.head?_cons, Option.some.injEq] at h
          simp [h]

theorem getLast?_trimRight_false : ∀ {l : Str} {c : Char},
    (trimRight l).getLast? = some c → uSpace c = false := by
  intro l
  induction l with
  | nil => intro c h; simp [trimRight] at h
  | cons a rest ih =>
      intro c h
      unfold trimRight at h
      cases htr : trimRight rest with
      | nil =>
          rw [htr] at h
          by_cases hu : uSpace a = true
          · simp [hu] at h
          · simp only [hu, Bool.false_eq_true, if_false,
              List.getLast?_singleton, Option.some.injEq] at h
            simpa [← h] using hu
      | cons r rs =>
          rw [htr] at h
          rw [List.getLast?_cons_cons] at h
          exact ih (by rw [htr]; exact h)

theorem head?_trimSpace_false {l : Str} {c : Char}
    (h : (trimSpace l).head? = some c) : uSpace c = false :=
  head?_dropWhile_false (head?_trimRight h)

theorem getLast?_trimSpace_false {l : Str} {c : Char}
    (h : (trimSpace l).getLast? = some c) : uSpace c = false :=
  getLast?_trimRight_false h

theorem head?_collapseSpaces_of {l : Str}
    (hl : ∀ c, l.head? = some c → uSpace c = false) :
    ∀ {c : Char}, (collapseSpaces l).head? = some c → uSpace c = false := by
  intro c h
  cases l with
  | nil => simp [collapseSpaces, collapseAux] at h
  | cons a rest =>
      have ha : uSpace a = false := hl a rfl
      have hg : goSpace a = false := goSpace_uSpace ha
      rw [collapseSpaces, collapseAux_cons_not_space hg false] at h
      simp only [List.head?_cons, Option.some.injEq] at h
      exact h ▸ ha

theorem getLast?_collapseAux : ∀ (b : Bool) {l : Str} {c : Char},
    l.getLast? = some c → goSpace c = false →
    (collapseAux b l).getLast? = some c := by
  intro b l
  induction l generalizing b with
  | nil => intro c h _; simp at h
  | cons a rest ih =>
      intro c h hc
      cases rest with
      | nil =>
          simp only [List.getLast?_singleton, Option.some.injEq] at h
          subst h
          rw [collapseAux_cons_not_space hc b]
          rfl
      | cons a' rest' =>
          rw [List.getLast?_cons_cons] at h
          have htail : ∀ b', (collapseAux b' (a' :: rest')).getLast? = some c :=
            fun b' => ih b' h hc
          have hne : ∀ b', collapseAux b' (a' :: rest') ≠ [] := by
            intro b' hnil
            have := htail b'
            rw [hnil] at this; simp at this
          by_cases hs : goSpace a = true
          · cases b with
            | true =>
                rw [collapseAux_cons_space_true hs]
                exact htail true
            | false =>
                rw [collapseAux_cons_space_false hs,
                  getLast?_cons_of_ne_nil (hne true)]
                exact htail true
          · rw [collapseAux_cons_not_space (by simpa using hs) b,
              getLast?_cons_of_ne_nil (hne false)]
            exact htail false

theorem getLast?_collapseSpaces_of {l : Str}
    (hl : ∀ c, l.getLast? = some c → uSpace c = false) :
    ∀ {c : Char}, (collapseSpaces l).getLast? = some c → uSpace c = false := by
  intro c h
  cases hg : l.getLast? with
  | none =>
      rw [List.getLast?_eq_none_iff] at hg
      subst hg
      simp [collapseSpaces, collapseAux] at h
  | some d =>
      have hd : uSpace d = false := hl d hg
      have := getLast?_collapseAux false hg (goSpace_uSpace hd)
      rw [collapseSpaces] at h
      rw [this] at h
      cases h; exact hd

/-! ### Idempotence of the collapse pass -/

theorem collapseAux_true_head_false : ∀ {l : Str} {c : Char},
    (collapseAux true l).head? = some c → goSpace c = false := by
  intro l
  induction l with
  | nil => intro c h; simp [collapseAux] at h
  | cons a rest ih =>
      intro c h
      by_cases hs : goSpace a = true
      · rw [collapseAux_cons_space_true hs] at h; exact ih h
      · rw [collapseAux_cons_not_space (by simpa using hs) true] at h
        simp only [List.head?_cons, Option.some.injEq] at h
        subst h
        simpa using hs

theorem collapseAux_true_eq_false {l : Str}
    (hl : ∀ c, l.head? = some c → goSpace c = false) :
    collapseAux true l = collapseAux false l := by
  cases l with
  | nil => rfl
  | cons a rest =>
      rw [collapseAux_cons_not_space (hl a rfl) true,
        collapseAux_cons_not_space (hl a rfl) false]

theorem collapseSpaces_collapseAux : ∀ (l : Str) (b : Bool),
    collapseSpaces (collapseAux b l) = collapseAux b l := by
  intro l
  induction l with
  | nil => intro b; rfl
  | cons a rest ih =>
      intro b
      by_cases hs : goSpace a = true
      · cases b with
        | true =>
            rw [collapseAux_cons_space_true hs]
            exact ih true
        | false =>
            rw [collapseAux_cons_space_false hs]
            show collapseAux false (' ' :: collapseAux true rest) = _
            rw [collapseAux_cons_space_false (by decide),
              collapseAux_true_eq_false
                (fun c hc => collapseAux_true_head_false hc)]
            exact congrArg (' ' :: ·) (ih true)
      · rw [collapseAux_cons_not_space (by simpa using hs) b]
        show collapseAux false (a :: collapseAux false rest) = _
        rw [collapseAux_cons_not_space (by simpa using hs) false]
        exact congrArg (a :: ·) (ih false)

theorem collapseSpaces_idem (l : Str) :
    collapseSpaces (collapseSpaces l) = collapseSpaces l :=
  collapseSpaces_collapseAux l false

/-! ### Lowercasing commutes with the collapse pass -/

theorem collapseAux_map_goToLower : ∀ (b : Bool) (l : Str),
    collapseAux b (l.map goToLower) = (collapseAux b l).map goToLower := by
  intro b l
  induction l generalizing b with
  | nil => rfl
  | cons a rest ih =>
      by_cases hs : goSpace a = true
      · have hs' : goSpace (goToLower a) = true := by rw [goSpace_goToLower]; exact hs
        cases b with
        | true =>
            rw [List.map_cons, collapseAux_cons_space_true hs',
              collapseAux_cons_space_true hs]
            exact ih true
        | false =>
            rw [List.map_cons, collapseAux_cons_space_false hs',
              collapseAux_cons_space_false hs, List.map_cons]
            exact congrArg _ (ih true)
      · have hs0 : goSpace a = false := by simpa using hs
        have hs' : goSpace (goToLower a) = false := by rw [goSpace_goToLower]; exact hs0
        rw [List.map_cons, collapseAux_cons_not_space hs' b,
          collapseAux_cons_not_space hs0 b, List.map_cons]
        exact congrArg _ (ih false)

/-! ### `trimSpace` and `dropWhile` fix strings with clean boundaries -/

theorem dropWhile_eq_self_of_head {p : Char → Bool} {l : Str}
    (h : ∀ c, l.head? = some c → p c = false) : l.dropWhile p = l := by
  cases l with
  | nil => rfl
  | cons a rest => exact List.dropWhile_cons_of_neg (by simp [h a rfl])

theorem trimRight_eq_self : ∀ {l : Str},
    (∀ c, l.getLast? = some c → uSpace c = false) → trimRight l = l := by
  intro l
  induction l with
  | nil => intro _; rfl
  | cons a rest ih =>
      intro h
      cases rest with
      | nil =>
          have : uSpace a = false := h a rfl
          simp [trimRight, this]
      | cons a' rest' =>
          have htail : trimRight (a' :: rest') = a' :: rest' :=
            ih fun c hc => h c (by rw [List.getLast?_cons_cons]; exact hc)
          unfold trimRight
          rw [htail]

theorem trimSpace_eq_self {l : Str}
    (hh : ∀ c, l.head? = some c → uSpace c = false)
    (hg : ∀ c, l.getLast? = some c → uSpace c = false) : trimSpace l = l := by
  unfold trimSpace
  rw [dropWhile_eq_self_of_head hh, trimRight_eq_self hg]

/-! ### Idempotence of canonicalisation on `#`-free names (claim C6) -/

theorem canonicalCodeName_eq (s : Str) :
    canonicalCodeName s =
      replaceNoOpChars
        (if isTopLevelName (collapseSpaces (trimSpace s))
         then collapseSpaces (trimSpace s)
         else (collapseSpaces (trimSpace s)).map goToLower) := rfl

theorem isTopLevelName_of_clean_head {l : Str}
    (hl : ∀ c, l.head? = some c → goSpace c = false) :
    isTopLevelName l = (l.head? == some '*') := by
  rw [isTopLevelName, dropWhile_eq_self_of_head hl]

/-- Core of the amended C6: on a `#`-free input, applying
`canonicalCodeName` twice gives the same result as applying it once. -/
theorem canonical_idem_no_noop (s : Str) (h : '#' ∉ s) :
    canonicalCodeName (canonicalCodeName s) = canonicalCodeName s := by
  have hh : ∀ c, (collapseSpaces (trimSpace s)).head? = some c → uSpace c = false :=
    fun c hc =>
      head?_collapseSpaces_of (fun d hd => head?_trimSpace_false hd) hc
  have hg : ∀ c, (collapseSpaces (trimSpace s)).getLast? = some c → uSpace c = false :=
    fun c hc =>
      getLast?_collapseSpaces_of (fun d hd => getLast?_trimSpace_false hd) hc
  have hhg : ∀ c, (collapseSpaces (trimSpace s)).head? = some c → goSpace c = false :=
    fun c hc => goSpace_uSpace (hh c hc)
  have hnohash : '#' ∉ collapseSpaces (trimSpace s) :=
    not_mem_collapseAux (by decide) false _ (not_mem_trimSpace h)
  have hcol : collapseSpaces (collapseSpaces (trimSpace s)) = collapseSpaces (trimSpace s) :=
    collapseSpaces_idem _
  by_cases htop : isTopLevelName (collapseSpaces (trimSpace s)) = true
  · have e1 : canonicalCodeName s = collapseSpaces (trimSpace s) := by
      rw [canonicalCodeName_eq, if_pos htop, replaceNoOpChars_of_not_mem hnohash]
    rw [e1, canonicalCodeName_eq, trimSpace_eq_self hh hg, hcol, if_pos htop,
      replaceNoOpChars_of_not_mem hnohash]
  · have e1 : canonicalCodeName s = (collapseSpaces (trimSpace s)).map goToLower := by
      rw [canonicalCodeName_eq, if_neg htop,
        replaceNoOpChars_of_not_mem (not_mem_map_goToLower hnohash)]
    have hh' : ∀ c, ((collapseSpaces (trimSpace s)).map goToLower).head? = some c →
        uSpace c = false := by
      intro c hc
      rw [List.head?_map] at hc
      cases hd : (collapseSpaces (trimSpace s)).head? with
      | none => rw [hd] at hc; exact absurd hc (by simp)
      | some d =>
          rw [hd] at hc
          simp only [Option.map_some', Option.some.injEq] at hc
          rw [← hc, uSpace_goToLower]
          exact hh d hd
    have hg' : ∀ c, ((collapseSpaces (trimSpace s)).map goToLower).getLast? = some c →
        uSpace c = false := by
      intro c hc
      rw [List.getLast?_map] at hc
      cases hd : (collapseSpaces (trimSpace s)).getLast? with
      | none => rw [hd] at hc; exact absurd hc (by simp)
      | some d =>
          rw [hd] at hc
          simp only [Option.map_some', Option.some.injEq] at hc
          rw [← hc, uSpace_goToLower]
          exact hg d hd
    have hhg' : ∀ c, ((collapseSpaces (trimSpace s)).map goToLower).head? = some c →
        goSpace c = false := fun c hc => goSpace_uSpace (hh' c hc)
    have hcol' : collapseSpaces ((collapseSpaces (trimSpace s)).map goToLower) =
        (collapseSpaces (trimSpace s)).map goToLower := by
      show collapseAux false _ = _
      rw [collapseAux_map_goToLower false]
      exact congrArg (List.map goToLower) hcol
    have htop' : ¬ isTopLevelName ((collapseSpaces (trimSpace s)).map goToLower) = true := by
      rw [isTopLevelName_of_clean_head hhg']
      intro hstar
      rw [beq_iff_eq, List.head?_map] at hstar
      cases hd : (collapseSpaces (trimSpace s)).head? with
      | none => rw [hd] at hstar; exact absurd hstar (by simp)
      | some d =>
          rw [hd] at hstar
          simp only [Option.map_some', Option.some.injEq] at hstar
          have hd' : d = '*' := goToLower_eq_star.mp hstar
          apply htop
          rw [isTopLevelName_of_clean_head hhg, hd, hd', beq_iff_eq]
    have hmapidem : ((collapseSpaces (trimSpace s)).map goToLower).map goToLower =
        (collapseSpaces (trimSpace s)).map goToLower := by
      rw [List.map_map]
      exact congrFun (congrArg List.map (funext fun a => goToLower_idem a)) _
    rw [e1, canonicalCodeName_eq, trimSpace_eq_self hh' hg', hcol', if_neg htop',
      hmapidem, replaceNoOpChars_of_not_mem (not_mem_map_goToLower hnohash)]

/-- C6 (counterexample): canonicalisation is not idempotent as claimed.
On the name `"# a"` the no-op pass deletes the `#`, exposing a leading
space that only a second canonicalisation trims away. -/
theorem C6_counterexample :
    canonicalCodeName (canonicalCodeName (str "# a")) ≠
      canonicalCodeName (str "# a") := by decide

/-- C6 (amended): fragment-name canonicalisation — trim outer whitespace,
collapse internal whitespace runs, lowercase non-`*` names, then the
escape pass shortening every run of the no-op character by one — is
idempotent on every name that contains no occurrence of the no-op
character `#`. -/
theorem C6_canonical_idempotent (s : Str) (h : '#' ∉ s) :
    canonicalCodeName (canonicalCodeName s) = canonicalCodeName s :=
  canonical_idem_no_noop s h

/-- Witness for `C6_canonical_idempotent` at the concrete name
`"  Mixed  CASE name "`. -/
theorem C6_witness :
    ('#' ∉ str "  Mixed  CASE name ") ∧
      canonicalCodeName (canonicalCodeName (str "  Mixed  CASE name ")) =
        canonicalCodeName (str "  Mixed  CASE name ") :=
  ⟨by decide, C6_canonical_idempotent (str "  Mixed  CASE name ") (by decide)⟩

/-! ### Source lines and blocks -/

/-- A position in a file (`FilePos`). -/
structure FilePos where
  filename : Str
  lineno : Nat
deriving DecidableEq, Repr

/-- A line of the source files (`SourceLine`). -/
structure SourceLine where
  pos : FilePos
  line : Str
deriving DecidableEq, Repr

/-- An ordered list of source code lines (`Block`). -/
structure Block where
  lines : List SourceLine
deriving DecidableEq, Repr

/-- `appendBlocks`. -/
def appendBlocks (b1 b2 : Block) : Block := ⟨b1.lines ++ b2.lines⟩

/-- `emptyLineRegex` (`^\s*$`), with Go's regexp `\s` class. -/
def isBlankGo (l : Str) : Bool := l.all goSpace

/-- UTF-8 byte length of a string, Go's `len`. -/
def goByteLen (l : Str) : Nat := (l.map Char.utf8Size).sum

/-- `whitespacePrefixLength`: Go ranges over the string, returning the
*byte* index of the first rune that is not `unicode.IsSpace`, and the
*rune* count when every rune is white space. -/
def wspAux : Nat → Str → Option Nat
  | _, [] => none
  | bytes, c :: rest =>
      if uSpace c then wspAux (bytes + c.utf8Size) rest else some bytes

def whitespacePrefixLength (l : Str) : Nat :=
  (wspAux 0 l).getD l.length

/-- The first loop of `deindentBlock`: the running minimum (`minSpace`),
`none` standing for Go's initial `-1`.  A line whose `TrimSpace` is empty
is skipped; the first counted line seeds the minimum with its byte
length before taking `min` with its white-space length. -/
def minIndent : Option Nat → List SourceLine → Option Nat
  | m, [] => m
  | m, sl :: rest =>
      if (trimSpace sl.line).length = 0 then minIndent m rest
      else
        match m with
        | none =>
            minIndent (some (min (goByteLen sl.line)
              (whitespacePrefixLength sl.line))) rest
        | some v =>
            minIndent (some (min v (whitespacePrefixLength sl.line))) rest

/-- `deindentBlock`: drop the first `minSpace` *runes* from every line
whose rune count is at least `minSpace`. -/
def deindentBlock (b : Block) : Block :=
  match minIndent none b.lines with
  | none => b
  | some m =>
      ⟨b.lines.map fun sl =>
        if m ≤ sl.line.length then { sl with line := sl.line.drop m } else sl⟩

/-- `removeBlankLines`, faithfully including the Go slice fault: the
`for first = range` loop leaves `first = len-1` when every line is blank,
the backwards loop leaves `last = -1`, and the slice
`lines[first : last+1]` is then out of range (modelled as `none`). -/
def removeBlankLines (b : Block) : Option Block :=
  let n := b.lines.length
  let first :=
    match b.lines.findIdx? (fun sl => !(isBlankGo sl.line)) with
    | some i => i
    | none => n - 1
  let lastPlus1 :=
    match b.lines.reverse.findIdx? (fun sl => !(isBlankGo sl.line)) with
    | some j => n - j
    | none => 0
  if first ≤ lastPlus1 then some ⟨(b.lines.take lastPlus1).drop first⟩ else none

/-- Finalisation of a collected block, as in `finalizeBlock` and
`weaveEndBlock`: `removeBlankLines(deindentBlock(block))`. -/
def finalizeContent (b : Block) : Option Block :=
  removeBlankLines (deindentBlock b)

/-- C7 (code bug): block finalisation faults on an all-white-space block
with two or more lines.  `for first = range` leaves `first = len-1` and
the backwards scan leaves `last = -1`, so `lines[first : last+1]` is the
out-of-range slice `lines[1:0]` — a panic, modelled as `none`.  A single
all-blank line, by contrast, finalises to the empty block, as does the
empty block itself. -/
theorem C7_finalize_fault :
    finalizeContent ⟨[⟨⟨str "f.gw", 1⟩, str "  "⟩, ⟨⟨str "f.gw", 2⟩, str "\t"⟩]⟩
        = none ∧
      finalizeContent ⟨[⟨⟨str "f.gw", 1⟩, str "  "⟩]⟩ = some ⟨[]⟩ ∧
      finalizeContent ⟨[]⟩ = some ⟨[]⟩ := by decide

/-! ### Finding `<<...>>` code references (`codeRefRegex`, non-greedy) -/

/-- Split a string at its first adjacent `>>` pair. -/
def splitAtClose : Str → Option (Str × Str)
  | '>' :: '>' :: rest => some ([], rest)
  | c :: rest => (splitAtClose rest).map fun p => (c :: p.1, p.2)
  | [] => none

/-- After an opening `<<`: the lazily-matched body, i.e. the shortest
nonempty inner text followed by `>>`, with the remainder. -/
def findClose (l : Str) : Option (Str × Str) :=
  match l with
  | [] => none
  | c :: rest => (splitAtClose rest).map fun p => (c :: p.1, p.2)

/-- `codeRefRegex.FindStringSubmatchIndex`: the leftmost match of the
non-greedy `<<(.+?)>>`, returned as `(before, inner, after)`.  When the
leftmost `<<` has no closing `>>` with a nonempty body, no later start
can match either (any adjacent `>>` usable by a later opener would
already have closed the leftmost one), so the search fails. -/
def findCodeRef : Str → Option (Str × Str × Str)
  | '<' :: '<' :: rest =>
      match findClose rest with
      | some (inner, after) => some ([], inner, after)
      | none => none
  | c :: rest => (findCodeRef rest).map fun p => (c :: p.1, p.2.1, p.2.2)
  | [] => none

theorem splitAtClose_eq : ∀ {l a b : Str},
    splitAtClose l = some (a, b) → l = a ++ '>' :: '>' :: b := by
  intro l
  induction l with
  | nil => intro a b h; simp [splitAtClose] at h
  | cons c rest ih =>
      intro a b h
      by_cases hgt : c = '>'
      · subst hgt
        cases rest with
        | nil => simp [splitAtClose] at h
        | cons d rest' =>
            by_cases hd : d = '>'
            · subst hd
              simp only [splitAtClose, Option.some.injEq, Prod.mk.injEq] at h
              rw [← h.1, ← h.2]
              rfl
            · have : splitAtClose ('>' :: d :: rest') =
                  (splitAtClose (d :: rest')).map fun p => ('>' :: p.1, p.2) := by
                conv_lhs => rw [splitAtClose.eq_def]
                simp [hd]
              rw [this] at h
              cases hs : splitAtClose (d :: rest') with
              | none => rw [hs] at h; simp at h
              | some p =>
                  rw [hs] at h
                  simp only [Option.map_some', Option.some.injEq, Prod.mk.injEq] at h
                  rcases h with ⟨h1, h2⟩
                  have := ih hs
                  subst h2
                  rw [← h1, this]
                  rfl
      · have : splitAtClose (c :: rest) =
            (splitAtClose rest).map fun p => (c :: p.1, p.2) := by
          conv_lhs => rw [splitAtClose.eq_def]
          cases rest with
          | nil => simp [hgt]
          | cons d rest' =>
              by_cases hd : d = '>' <;> simp [hgt, hd]
        rw [this] at h
        cases hs : splitAtClose rest with
        | none => rw [hs] at h; simp at h
        | some p =>
            rw [hs] at h
            simp only [Option.map_some', Option.some.injEq, Prod.mk.injEq] at h
            rcases h with ⟨h1, h2⟩
            have := ih hs
            subst h2
            rw [← h1, this]
            rfl

theorem findClose_eq {l inner after : Str}
    (h : findClose l = some (inner, after)) :
    l = inner ++ '>' :: '>' :: after ∧ inner ≠ [] := by
  cases l with
  | nil => simp [findClose] at h
  | cons c rest =>
      simp only [findClose] at h
      cases hs : splitAtClose rest with
      | none => rw [hs] at h; simp at h
      | some p =>
          rw [hs] at h
          simp only [Option.map_some', Option.some.injEq, Prod.mk.injEq] at h
          rcases h with ⟨h1, h2⟩
          have := splitAtClose_eq hs
          subst h2
          refine ⟨?_, by simp [← h1]⟩
          rw [← h1, this]
          rfl

theorem findCodeRef_eq : ∀ {l before inner after : Str},
    findCodeRef l = some (before, inner, after) →
    l = before ++ '<' :: '<' :: (inner ++ '>' :: '>' :: after) ∧ inner ≠ [] := by
  intro l
  induction l with
  | nil => intro b i a h; simp [findCodeRef] at h
  | cons c rest ih =>
      intro b i a h
      by_cases hlt : c = '<'
      · subst hlt
        cases rest with
        | nil => simp [findCodeRef] at h
        | cons d rest' =>
            by_cases hd : d = '<'
            · subst hd
              simp only [findCodeRef] at h
              cases hf : findClose rest' with
              | none => rw [hf] at h; simp at h
              | some p =>
                  rw [hf] at h
                  simp only [Option.some.injEq, Prod.mk.injEq] at h
                  rcases h with ⟨h1, h2, h3⟩
                  rcases findClose_eq hf with ⟨he, hne⟩
                  subst h2 h3
                  constructor
                  · rw [← h1, he]; rfl
                  · exact hne
            · have : findCodeRef ('<' :: d :: rest') =
                  (findCodeRef (d :: rest')).map
                    fun p => ('<' :: p.1, p.2.1, p.2.2) := by
                conv_lhs => rw [findCodeRef.eq_def]
                simp [hd]
              rw [this] at h
              cases hf : findCodeRef (d :: rest') with
              | none => rw [hf] at h; simp at h
              | some p =>
                  rw [hf] at h
                  simp only [Option.map_some', Option.some.injEq, Prod.mk.injEq] at h
                  rcases h with ⟨h1, h2, h3⟩
                  rcases ih hf with ⟨he, hne⟩
                  subst h2 h3
                  refine ⟨?_, hne⟩
                  rw [← h1, he]
                  rfl
      · have : findCodeRef (c :: rest) =
            (findCodeRef rest).map fun p => (c :: p.1, p.2.1, p.2.2) := by
          conv_lhs => rw [findCodeRef.eq_def]
          cases rest with
          | nil => simp [hlt]
          | cons d rest' =>
              by_cases hd : d = '<' <;> simp [hlt, hd]
        rw [this] at h
        cases hf : findCodeRef rest with
        | none => rw [hf] at h; simp at h
        | some p =>
            rw [hf] at h
            simp only [Option.map_some', Option.some.injEq, Prod.mk.injEq] at h
            rcases h with ⟨h1, h2, h3⟩
            rcases ih hf with ⟨he, hne⟩
            subst h2 h3
            refine ⟨?_, hne⟩
            rw [← h1, he]
            rfl

theorem findCodeRef_after_lt {l before inner after : Str}
    (h : findCodeRef l = some (before, inner, after)) :
    after.length < l.length := by
  rcases findCodeRef_eq h with ⟨he, hne⟩
  have : inner.length ≠ 0 := by
    intro hz; exact hne (List.eq_nil_of_length_eq_zero hz)
  rw [he]
  simp [List.length_append]
  omega

/-- `codeRefRegex.FindAllStringSubmatch`: the inner texts of all
(non-overlapping, leftmost-first) reference matches. -/
def findAllAux : Nat → Str → List Str
  | 0, _ => []
  | fuel+1, l =>
      match findCodeRef l with
      | none => []
      | some (_, inner, after) => inner :: findAllAux fuel after

def findAllCodeRefs (l : Str) : List Str := findAllAux (l.length + 1) l

theorem findAllAux_stable : ∀ fuel fuel' (l : Str), l.length < fuel →
    l.length < fuel' → findAllAux fuel l = findAllAux fuel' l := by
  intro fuel
  induction fuel with
  | zero => intro fuel' l h _; omega
  | succ n ih =>
      intro fuel' l h h'
      cases fuel' with
      | zero => omega
      | succ n' =>
          simp only [findAllAux]
          cases hf : findCodeRef l with
          | none => rfl
          | some p =>
              rcases p with ⟨b, i, a⟩
              have hlt := findCodeRef_after_lt hf
              exact congrArg (i :: ·) (ih n' a (by omega) (by omega))

theorem findAllCodeRefs_none {l : Str} (h : findCodeRef l = none) :
    findAllCodeRefs l = [] := by
  simp [findAllCodeRefs, findAllAux, h]

theorem findAllCodeRefs_some {l before inner after : Str}
    (h : findCodeRef l = some (before, inner, after)) :
    findAllCodeRefs l = inner :: findAllCodeRefs after := by
  have hlt := findCodeRef_after_lt h
  simp only [findAllCodeRefs, findAllAux, h]
  exact congrArg (inner :: ·)
    (findAllAux_stable l.length (after.length + 1) after (by omega) (by omega))

/-! ### `os.Expand` and the line pragmas -/

/-- Go's `isShellSpecialVar`. -/
def isShellSpecial (c : Char) : Bool :=
  c = '*' || c = '#' || c = '$' || c = '@' || c = '!' || c = '?' || c = '-' ||
  (('0' ≤ c) && (c ≤ '9'))

/-- Go's `isAlphaNum`. -/
def isAlphaNum (c : Char) : Bool :=
  c = '_' || (('0' ≤ c) && (c ≤ '9')) || (('a' ≤ c) && (c ≤ 'z')) ||
  (('A' ≤ c) && (c ≤ 'Z'))

/-- Split at the first `}`. -/
def braceSplit : Str → Option (Str × Str)
  | [] => none
  | '}' :: rest => some ([], rest)
  | c :: rest => (braceSplit rest).map fun p => (c :: p.1, p.2)

/-- Go's `getShellName`: the variable name after a `$` and the number of
characters it spans. -/
def getShellName (s : Str) : Str × Nat :=
  match s with
  | [] => ([], 0)
  | '{' :: rest =>
      match braceSplit rest with
      | some ([], _) => ([], 2)
      | some (name, _) => (name, name.length + 2)
      | none => ([], 1)
  | c :: _ =>
      if isShellSpecial c then ([c], 1)
      else
        let name := s.takeWhile isAlphaNum
        (name, name.length)

/-- Go's `os.Expand` with a replacement mapping. -/
def goExpandAux (m : Str → Str) : Nat → Str → Str
  | 0, l => l
  | _fuel+1, [] => []
  | fuel+1, '$' :: rest =>
      match rest with
      | [] => ['$']
      | _ =>
          let nw := getShellName rest
          if nw.1 = [] ∧ nw.2 > 0 then goExpandAux m fuel (rest.drop nw.2)
          else if nw.1 = [] then '$' :: goExpandAux m fuel (rest.drop nw.2)
          else m nw.1 ++ goExpandAux m fuel (rest.drop nw.2)
  | fuel+1, c :: rest => c :: goExpandAux m fuel rest

def goExpand (m : Str → Str) (l : Str) : Str := goExpandAux m (l.length + 1) l

/-- The default `TangleLineRef` template (tangle never loads a
configuration file, so the default always applies). -/
def tangleLineRef : Str := str "/*line $filename:$lineno*/"

/-- `lineCommand` with `Options.Command = "tangle"`: expand
`TangleLineRef`, substituting the position's line number and file name;
any other variable name is replaced by itself (Go's mapping returns `s`). -/
def lineCommandT (pos : FilePos) : Str :=
  goExpand
    (fun name =>
      if name = str "lineno" then (Nat.repr pos.lineno).data
      else if name = str "filename" then pos.filename
      else name)
    tangleLineRef

theorem lineCommandT_eq (pos : FilePos) :
    lineCommandT pos =
      str "/*line " ++ pos.filename ++ ':' :: (Nat.repr pos.lineno).data ++
        str "*/" := by
  show goExpandAux _ 27 _ = _
  simp +decide [goExpandAux, getShellName, braceSplit, isShellSpecial,
    isAlphaNum, str]

/-! ### The block store and the tangle expander -/

/-- The tangle block store: `map[string]Block`, modelled as an
association list keyed by canonical names (first binding wins). -/
abbrev BlockStore := List (Str × Block)

def lookupStore (s : BlockStore) (k : Str) : Option Block :=
  match s.find? (fun p => p.1 == k) with
  | some p => some p.2
  | none => none

/-- Errors surfaced by tangling (`ErrorWithFile` carries the position). -/
inductive GoError where
  | cannotRefTopLevel (pos : FilePos) (name : Str)
  | undefinedReference (pos : FilePos) (name : Str)
  | badTopLevelName (pos : FilePos) (name : Str)
  | noTopLevelBlocks
  | internallyMissingBlock (name : Str)
  | internalBadTopLevel (name : Str)
  | cmpError
  | panicked
deriving DecidableEq, Repr

/-- The per-line constructions of `expandLine`'s non-empty-block loop:
line `0` is `before ++ pragma(pos₀) ++ text₀`, later lines are indented
by `indent` spaces, and `after` is appended to the final line.  Each
line is paired with its own source position for the recursive call. -/
def buildItems (before after : Str) (indent : Nat) :
    Bool → List SourceLine → List (Str × FilePos)
  | _, [] => []
  | isFirst, sl :: rest =>
      let base :=
        if isFirst then before ++ lineCommandT sl.pos ++ sl.line
        else List.replicate indent ' ' ++ sl.line
      let withLast := if rest = [] then base ++ after else base
      (withLast, sl.pos) :: buildItems before after indent false rest

/-- Run an expansion step over each constructed line, concatenating the
resulting output lines (`out.PushBackList`), propagating the first
error, and propagating fuel exhaustion (`none`). -/
def expandEachWith (f : Str → FilePos → Option (Except GoError (List Str))) :
    List (Str × FilePos) → Option (Except GoError (List Str))
  | [] => some (Except.ok [])
  | (l, p) :: rest =>
      match f l p with
      | none => none
      | some (Except.error e) => some (Except.error e)
      | some (Except.ok ls) =>
          match expandEachWith f rest with
          | none => none
          | some (Except.error e) => some (Except.error e)
          | some (Except.ok ls') => some (Except.ok (ls ++ ls'))

/-- `expandLine`, with explicit recursion fuel (`none` = the Go function
is still recursing; the Go original has no depth bound of its own). -/
def expandLineF (blocks : BlockStore) : Nat → Str → FilePos →
    Option (Except GoError (List Str))
  | 0, _, _ => none
  | fuel+1, line, loc =>
      match findCodeRef line with
      | none => some (Except.ok [line])
      | some (before, innerRaw, after) =>
          let blockName := canonicalCodeName (trimSpace innerRaw)
          if isTopLevelName blockName then
            some (Except.error (GoError.cannotRefTopLevel loc blockName))
          else
            match lookupStore blocks blockName with
            | none => some (Except.error (GoError.undefinedReference loc blockName))
            | some refd =>
                if refd.lines = [] then
                  some (Except.ok [before ++ ' ' :: after])
                else
                  expandEachWith (fun l p => expandLineF blocks fuel l p)
                    (buildItems before after before.length true refd.lines)

/-! ### Structure of one expansion step (claims C1, C2, C3) -/

theorem buildItems_length (before after : Str) (ind : Nat) :
    ∀ (isFirst : Bool) (lines : List SourceLine),
      (buildItems before after ind isFirst lines).length = lines.length := by
  intro isFirst lines
  induction lines generalizing isFirst with
  | nil => rfl
  | cons sl rest ih => simp [buildItems, ih false]

theorem buildItems_getElem (before after : Str) (ind : Nat) :
    ∀ (lines : List SourceLine) (isFirst : Bool) (i : Nat) (hi : i < lines.length),
      (buildItems before after ind isFirst lines).get
          ⟨i, by rw [buildItems_length]; exact hi⟩ =
        ((if i = 0 ∧ isFirst = true then
            before ++ lineCommandT (lines.get ⟨i, hi⟩).pos ++ (lines.get ⟨i, hi⟩).line
          else List.replicate ind ' ' ++ (lines.get ⟨i, hi⟩).line) ++
          (if i = lines.length - 1 then after else []),
         (lines.get ⟨i, hi⟩).pos) := by
  intro lines
  induction lines with
  | nil => intro isFirst i hi; simp at hi
  | cons sl rest ih =>
      intro isFirst i hi
      cases i with
      | zero =>
          cases isFirst <;> by_cases hr : rest = [] <;>
              simp [buildItems, hr] <;>
            exact fun h => absurd (List.eq_nil_of_length_eq_zero h.symm) hr
      | succ j =>
          have hj : j < rest.length := by simpa using hi
          have hrw := ih false j hj
          simp only [buildItems, List.get_cons_succ]
          rw [hrw]
          have hfalse : ¬ (j = 0 ∧ (false : Bool) = true) := by simp
          have hfalse2 : ¬ (j + 1 = 0 ∧ isFirst = true) := by simp
          rw [if_neg hfalse, if_neg hfalse2]
          by_cases hl : j = rest.length - 1
          · have hl' : j + 1 = (sl :: rest).length - 1 := by
              simp only [List.length_cons]
              omega
            rw [if_pos hl, if_pos hl']
          · have hl' : ¬ (j + 1 = (sl :: rest).length - 1) := by
              simp only [List.length_cons]
              omega
            rw [if_neg hl, if_neg hl']

/-- C3: expanding a line whose first reference names a non-empty stored
block.  The constructed lines are: line 0 is `before`, then the tangle
line-pragma of the first referenced line, then that line's text;
every subsequent line is prefixed by `before.length` spaces (the
code-point length of `before`); `after` is appended to the final line;
and each constructed line is handed back to the expander (one fuel level
deeper) at its own source position, with the results concatenated. -/
theorem C3_expand_nonempty (blocks : BlockStore) (fuel : Nat) (line : Str)
    (loc : FilePos) (before innerRaw after : Str) (refd : Block)
    (hfind : findCodeRef line = some (before, innerRaw, after))
    (htop : isTopLevelName (canonicalCodeName (trimSpace innerRaw)) = false)
    (hlook : lookupStore blocks (canonicalCodeName (trimSpace innerRaw)) = some refd)
    (hne : refd.lines ≠ []) :
    expandLineF blocks (fuel + 1) line loc =
      expandEachWith (fun l p => expandLineF blocks fuel l p)
        (buildItems before after before.length true refd.lines) ∧
    (buildItems before after before.length true refd.lines).length =
      refd.lines.length ∧
    ∀ (i : Nat) (hi : i < refd.lines.length),
      (buildItems before after before.length true refd.lines).get
          ⟨i, by rw [buildItems_length]; exact hi⟩ =
        ((if i = 0 then
            before ++ lineCommandT (refd.lines.get ⟨i, hi⟩).pos ++
              (refd.lines.get ⟨i, hi⟩).line
          else List.replicate before.length ' ' ++ (refd.lines.get ⟨i, hi⟩).line) ++
          (if i = refd.lines.length - 1 then after else []),
         (refd.lines.get ⟨i, hi⟩).pos) := by
  refine ⟨?_, buildItems_length _ _ _ _ _, ?_⟩
  · simp only [expandLineF, hfind, htop, hlook, hne, Bool.false_eq_true,
      if_false, ite_false]
  · intro i hi
    have := buildItems_getElem before after before.length refd.lines true i hi
    rw [this]
    simp

/-- Witness for `C3_expand_nonempty`: the spec's indent-propagation
scenario S3, `"    pre <<b>> post"` against a two-line block `b`. -/
theorem C3_witness :
    expandLineF
        [(str "b", ⟨[⟨⟨str "f.gw", 5⟩, str "foo"⟩, ⟨⟨str "f.gw", 6⟩, str "bar"⟩]⟩)]
        2 (str "    pre <<b>> post") ⟨str "f.gw", 10⟩ =
      some (Except.ok [str "    pre /*line f.gw:5*/foo", str "        bar post"]) ∧
    expandLineF
        [(str "b", ⟨[⟨⟨str "f.gw", 5⟩, str "foo"⟩, ⟨⟨str "f.gw", 6⟩, str "bar"⟩]⟩)]
        2 (str "    pre <<b>> post") ⟨str "f.gw", 10⟩ =
      expandEachWith
        (fun l p =>
          expandLineF
            [(str "b", ⟨[⟨⟨str "f.gw", 5⟩, str "foo"⟩, ⟨⟨str "f.gw", 6⟩, str "bar"⟩]⟩)]
            1 l p)
        (buildItems (str "    pre ") (str " post") (str "    pre ").length true
          [⟨⟨str "f.gw", 5⟩, str "foo"⟩, ⟨⟨str "f.gw", 6⟩, str "bar"⟩]) := by
  constructor
  · rfl
  · exact (C3_expand_nonempty
      [(str "b", ⟨[⟨⟨str "f.gw", 5⟩, str "foo"⟩, ⟨⟨str "f.gw", 6⟩, str "bar"⟩]⟩)]
      1 (str "    pre <<b>> post") ⟨str "f.gw", 10⟩
      (str "    pre ") (str "b") (str " post")
      ⟨[⟨⟨str "f.gw", 5⟩, str "foo"⟩, ⟨⟨str "f.gw", 6⟩, str "bar"⟩]⟩
      (by decide) (by decide) (by decide) (by decide)).1

/-- C1 (code bug): when the first reference on a line names an *empty*
stored block, `expandLine` pushes `before ++ " " ++ after` as a finished
output line and does **not** recurse on it, so a second reference inside
`after` is left unexpanded in the tangle output.  The second conjunct
shows what one further expansion step would have produced. -/
theorem C1_empty_block_no_recursion :
    expandLineF
        [(str "e", ⟨[]⟩), (str "x", ⟨[⟨⟨str "f.gw", 8⟩, str "X"⟩]⟩)]
        5 (str "a<<e>>b<<x>>c") ⟨str "f.gw", 10⟩ =
      some (Except.ok [str "a b<<x>>c"]) ∧
    expandLineF
        [(str "e", ⟨[]⟩), (str "x", ⟨[⟨⟨str "f.gw", 8⟩, str "X"⟩]⟩)]
        5 (str "a b<<x>>c") ⟨str "f.gw", 10⟩ =
      some (Except.ok [str "a b/*line f.gw:8*/Xc"]) := ⟨rfl, rfl⟩

/-- Tangle half of C2: a reference whose canonical name has no entry in
the block store makes `expandLine` fail with the undefined-reference
error carrying the expansion position. -/
theorem tangle_undefined_ref (blocks : BlockStore) (fuel : Nat) (line : Str)
    (loc : FilePos) (before innerRaw after : Str)
    (hfind : findCodeRef line = some (before, innerRaw, after))
    (htop : isTopLevelName (canonicalCodeName (trimSpace innerRaw)) = false)
    (hlook : lookupStore blocks (canonicalCodeName (trimSpace innerRaw)) = none) :
    expandLineF blocks (fuel + 1) line loc =
      some (Except.error
        (GoError.undefinedReference loc (canonicalCodeName (trimSpace innerRaw)))) := by
  simp only [expandLineF, hfind, htop, hlook, Bool.false_eq_true, if_false,
    ite_false]

/-! ### Termination of expansion under acyclicity (claim C10) -/

theorem findCodeRef_cons_not_lt {c : Char} {rest : Str} (hc : c ≠ '<') :
    findCodeRef (c :: rest) =
      (findCodeRef rest).map fun p => (c :: p.1, p.2.1, p.2.2) := by
  conv_lhs => rw [findCodeRef.eq_def]
  cases rest with
  | nil => simp [hc]
  | cons d rest' =>
      by_cases hd : d = '<' <;> simp [hc, hd]

theorem findCodeRef_append_no_lt : ∀ {pre : Str} (l : Str),
    (∀ c ∈ pre, c ≠ '<') →
    findCodeRef (pre ++ l) =
      (findCodeRef l).map fun p => (pre ++ p.1, p.2.1, p.2.2) := by
  intro pre
  induction pre with
  | nil =>
      intro l _
      cases hf : findCodeRef l with
      | none => simp [hf]
      | some p => simp [hf]
  | cons c pre' ih =>
      intro l h
      have hc : c ≠ '<' := h c (List.mem_cons_self c pre')
      have h' : ∀ x ∈ pre', x ≠ '<' := fun x hx => h x (List.mem_cons_of_mem c hx)
      rw [List.cons_append, findCodeRef_cons_not_lt hc, ih l h']
      cases findCodeRef l with
      | none => rfl
      | some p => rfl

/-- A *dynamic* no-revisit condition, read off the recursion of
`expandLine` itself: starting from a line, every expansion path only
ever descends into fragments not seen on that path.  This is strictly
stronger than acyclicity of the store's static fragment-reference graph
(which is refuted as a termination hypothesis by `divStore` below): it
follows the actually-spliced lines, so it also accounts for references
re-formed at splice boundaries, and it even excludes some terminating
inputs (e.g. two references to the same fragment on one line).  Lines
whose first reference is absent, top-level, undefined, or names an
empty block end the path immediately. -/
inductive NoRevisit (blocks : BlockStore) : List Str → Str → FilePos → Prop where
  | noRef {visited line loc} (h : findCodeRef line = none) :
      NoRevisit blocks visited line loc
  | topLevel {visited line loc before innerRaw after}
      (h : findCodeRef line = some (before, innerRaw, after))
      (ht : isTopLevelName (canonicalCodeName (trimSpace innerRaw)) = true) :
      NoRevisit blocks visited line loc
  | undef {visited line loc before innerRaw after}
      (h : findCodeRef line = some (before, innerRaw, after))
      (ht : isTopLevelName (canonicalCodeName (trimSpace innerRaw)) = false)
      (hl : lookupStore blocks (canonicalCodeName (trimSpace innerRaw)) = none) :
      NoRevisit blocks visited line loc
  | emptyBlock {visited line loc before innerRaw after refd}
      (h : findCodeRef line = some (before, innerRaw, after))
      (ht : isTopLevelName (canonicalCodeName (trimSpace innerRaw)) = false)
      (hl : lookupStore blocks (canonicalCodeName (trimSpace innerRaw)) = some refd)
      (he : refd.lines = []) :
      NoRevisit blocks visited line loc
  | step {visited line loc before innerRaw after refd}
      (h : findCodeRef line = some (before, innerRaw, after))
      (ht : isTopLevelName (canonicalCodeName (trimSpace innerRaw)) = false)
      (hl : lookupStore blocks (canonicalCodeName (trimSpace innerRaw)) = some refd)
      (hne : refd.lines ≠ [])
      (hfresh : canonicalCodeName (trimSpace innerRaw) ∉ visited)
      (hrec : ∀ lp ∈ buildItems before after before.length true refd.lines,
        NoRevisit blocks (canonicalCodeName (trimSpace innerRaw) :: visited)
          lp.1 lp.2) :
      NoRevisit blocks visited line loc

theorem lookupStore_mem_keys {blocks : BlockStore} {k : Str} {b : Block}
    (h : lookupStore blocks k = some b) : k ∈ blocks.map Prod.fst := by
  unfold lookupStore at h
  cases hf : blocks.find? (fun p => p.1 == k) with
  | none => rw [hf] at h; simp at h
  | some p =>
      have hp := List.find?_some hf
      have hm := List.mem_of_find?_eq_some hf
      have : p.1 = k := by simpa using hp
      rw [← this]
      exact List.mem_map_of_mem Prod.fst hm

theorem expandEachWith_isSome {f : Str → FilePos → Option (Except GoError (List Str))} :
    ∀ {items : List (Str × FilePos)},
      (∀ lp ∈ items, (f lp.1 lp.2).isSome) → (expandEachWith f items).isSome := by
  intro items
  induction items with
  | nil => intro _; rfl
  | cons lp rest ih =>
      intro h
      have h1 : (f lp.1 lp.2).isSome = true := h lp (List.mem_cons_self lp rest)
      have h2 : (expandEachWith f rest).isSome = true :=
        ih fun x hx => h x (List.mem_cons_of_mem lp hx)
      rcases lp with ⟨l, p⟩
      simp only [expandEachWith]
      cases hf : f l p with
      | none => rw [hf] at h1; simp at h1
      | some r =>
          cases r with
          | error e => simp
          | ok ls =>
              cases hr : expandEachWith f rest with
              | none => rw [hr] at h2; simp at h2
              | some r2 => cases r2 <;> simp

/-- Traversing an expansion path consumes a fresh store key at every
`step`, so any fuel exceeding the number of distinct unvisited keys
suffices. -/
theorem noRevisit_expand_isSome {blocks : BlockStore} {visited : List Str}
    {line : Str} {loc : FilePos} (h : NoRevisit blocks visited line loc) :
    ∀ fuel, ((blocks.map Prod.fst).toFinset \ visited.toFinset).card < fuel →
    (expandLineF blocks fuel line loc).isSome := by
  induction h with
  | noRef h =>
      intro fuel hc
      cases fuel with
      | zero => omega
      | succ n => simp [expandLineF, h]
  | topLevel h ht =>
      intro fuel hc
      cases fuel with
      | zero => omega
      | succ n => simp [expandLineF, h, ht]
  | undef h ht hl =>
      intro fuel hc
      cases fuel with
      | zero => omega
      | succ n => simp [expandLineF, h, ht, hl]
  | emptyBlock h ht hl he =>
      intro fuel hc
      cases fuel with
      | zero => omega
      | succ n => simp [expandLineF, h, ht, hl, he]
  | step h ht hl hne hfresh hrec ih =>
      intro fuel hc
      cases fuel with
      | zero => omega
      | succ n =>
          rename_i visited' line' loc' before innerRaw after refd
          have hkey : canonicalCodeName (trimSpace innerRaw) ∈ blocks.map Prod.fst :=
            lookupStore_mem_keys hl
          have hmemdiff : canonicalCodeName (trimSpace innerRaw) ∈
              (blocks.map Prod.fst).toFinset \ visited'.toFinset := by
            rw [Finset.mem_sdiff]
            exact ⟨List.mem_toFinset.mpr hkey, fun hmem =>
              hfresh (List.mem_toFinset.mp hmem)⟩
          have hstep : ((blocks.map Prod.fst).toFinset \
              (canonicalCodeName (trimSpace innerRaw) :: visited').toFinset).card <
              ((blocks.map Prod.fst).toFinset \ visited'.toFinset).card := by
            apply Finset.card_lt_card
            constructor
            · intro x hx
              rw [Finset.mem_sdiff] at hx ⊢
              refine ⟨hx.1, fun hmem => hx.2 ?_⟩
              rw [List.toFinset_cons]
              exact Finset.mem_insert_of_mem hmem
            · intro hsub
              have := hsub hmemdiff
              rw [Finset.mem_sdiff, List.toFinset_cons] at this
              exact this.2 (Finset.mem_insert_self _ _)
          simp only [expandLineF, h, ht, hl, hne, Bool.false_eq_true, if_false,
            ite_false]
          exact expandEachWith_isSome fun lp hlp => ih lp hlp n (by omega)

/-- The cyclic one-fragment store `a ↦ ["<<a>>"]`. -/
def cycStore : BlockStore := [(str "a", ⟨[⟨⟨str "f", 1⟩, str "<<a>>"⟩]⟩)]

theorem cycStore_diverges :
    ∀ (fuel : Nat) (pre : Str) (loc : FilePos), (∀ c ∈ pre, c ≠ '<') →
      expandLineF cycStore fuel (pre ++ str "<<a>>") loc = none := by
  intro fuel
  induction fuel with
  | zero => intro pre loc _; rfl
  | succ n ih =>
      intro pre loc hpre
      have hbase : findCodeRef (str "<<a>>") = some ([], str "a", []) := by
        decide
      have hfind : findCodeRef (pre ++ str "<<a>>") =
          some (pre, str "a", []) := by
        rw [findCodeRef_append_no_lt (str "<<a>>") hpre, hbase]
        simp
      have hname : canonicalCodeName (trimSpace (str "a")) = str "a" := by decide
      have hlook : lookupStore cycStore (str "a") =
          some ⟨[⟨⟨str "f", 1⟩, str "<<a>>"⟩]⟩ := by decide
      simp only [expandLineF, hfind, hname, hlook]
      have htop : isTopLevelName (str "a") = false := by decide
      simp only [htop, Bool.false_eq_true, if_false, ite_false]
      have hblk : ([⟨⟨str "f", 1⟩, str "<<a>>"⟩] : List SourceLine) ≠ [] := by simp
      simp only [hblk, if_false, ite_false]
      have hitems : buildItems pre [] pre.length true
          [⟨⟨str "f", 1⟩, str "<<a>>"⟩] =
          [((pre ++ lineCommandT ⟨str "f", 1⟩ ++ str "<<a>>") ++ [],
            ⟨str "f", 1⟩)] := by
        simp [buildItems]
      rw [hitems]
      have hform : (pre ++ lineCommandT ⟨str "f", 1⟩ ++ str "<<a>>") ++ [] =
          (pre ++ lineCommandT ⟨str "f", 1⟩) ++ str "<<a>>" := by
        rw [List.append_nil, List.append_assoc]
      have hpre' : ∀ c ∈ pre ++ lineCommandT ⟨str "f", 1⟩, c ≠ '<' := by
        intro c hmem
        rcases List.mem_append.mp hmem with hm | hm
        · exact hpre c hm
        · have : lineCommandT ⟨str "f", 1⟩ = str "/*line f:1*/" := by decide
          rw [this] at hm
          intro he
          subst he
          revert hm
          decide
      have := ih (pre ++ lineCommandT ⟨str "f", 1⟩) ⟨str "f", 1⟩ hpre'
      rw [← hform] at this
      simp only [expandEachWith, this]

/-! The claim's hypothesis as stated is a property of the store's
*static* fragment-reference graph: fragment `u` references `v` when a
line of `u`'s block contains a complete `<<...>>` match whose canonical
name is `v` (the code's own scanner `findAllCodeRefs` and the naming of
`expandLine`, `canonicalCodeName ∘ trimSpace`).  The following
definitions formalise that graph and its acyclicity. -/

/-- The canonical names of the complete references on one stored line. -/
def lineRefNames (l : Str) : List Str :=
  (findAllCodeRefs l).map fun r => canonicalCodeName (trimSpace r)

/-- The canonical names referenced anywhere in a block. -/
def blockRefNames (b : Block) : List Str :=
  b.lines.foldr (fun sl acc => lineRefNames sl.line ++ acc) []

/-- The static successors of a fragment name in the store. -/
def refSuccs (blocks : BlockStore) (n : Str) : List Str :=
  match lookupStore blocks n with
  | some b => blockRefNames b
  | none => []

/-- The names reachable from `n` through 1 to `k` static reference
edges. -/
def reachList (blocks : BlockStore) : Nat → Str → List Str
  | 0, _ => []
  | k+1, n =>
      (refSuccs blocks n).foldr
        (fun m acc => m :: (reachList blocks k m ++ acc)) []

/-- Static acyclicity of the fragment-reference graph: no stored name
reaches itself through reference edges (paths longer than the store
cannot be simple, so `blocks.length + 1` steps decide it). -/
def staticAcyclic (blocks : BlockStore) : Bool :=
  (blocks.map Prod.fst).all fun k =>
    !((reachList blocks (blocks.length + 1) k).contains k)

/-- A store whose static fragment-reference graph is acyclic — its only
edge is `u → s`, since `s`'s line `"<<u"` has no complete reference —
yet on which expansion diverges: the trailing `>>` stored in `u`'s line
closes the unclosed `<<u` contributed by `s`'s line each time the two
are spliced together, re-forming a reference to `u` at the boundary. -/
def divStore : BlockStore :=
  [(str "u", ⟨[⟨⟨str "f", 1⟩, str "<<s>>>>"⟩]⟩),
   (str "s", ⟨[⟨⟨str "f", 2⟩, str "<<u"⟩]⟩)]

theorem divStore_diverges : ∀ (fuel : Nat),
    (∀ (pre : Str) (loc : FilePos), (∀ c ∈ pre, c ≠ '<') →
      expandLineF divStore fuel (pre ++ str "<<u>>") loc = none) ∧
    (∀ (pre : Str) (loc : FilePos), (∀ c ∈ pre, c ≠ '<') →
      expandLineF divStore fuel (pre ++ str "<<s>>>>") loc = none) := by
  intro fuel
  induction fuel with
  | zero => exact ⟨fun pre loc _ => rfl, fun pre loc _ => rfl⟩
  | succ n ih =>
      constructor
      · intro pre loc hpre
        have hbase : findCodeRef (str "<<u>>") = some ([], str "u", []) := by
          decide
        have hfind : findCodeRef (pre ++ str "<<u>>") =
            some (pre, str "u", []) := by
          rw [findCodeRef_append_no_lt (str "<<u>>") hpre, hbase]
          simp
        have hname : canonicalCodeName (trimSpace (str "u")) = str "u" := by
          decide
        have hlook : lookupStore divStore (str "u") =
            some ⟨[⟨⟨str "f", 1⟩, str "<<s>>>>"⟩]⟩ := by decide
        simp only [expandLineF, hfind, hname, hlook]
        have htop : isTopLevelName (str "u") = false := by decide
        simp only [htop, Bool.false_eq_true, if_false, ite_false]
        have hblk : ([⟨⟨str "f", 1⟩, str "<<s>>>>"⟩] : List SourceLine) ≠ [] := by
          simp
        simp only [hblk, if_false, ite_false]
        have hitems : buildItems pre [] pre.length true
            [⟨⟨str "f", 1⟩, str "<<s>>>>"⟩] =
            [((pre ++ lineCommandT ⟨str "f", 1⟩ ++ str "<<s>>>>") ++ [],
              ⟨str "f", 1⟩)] := by
          simp [buildItems]
        rw [hitems]
        have hform : (pre ++ lineCommandT ⟨str "f", 1⟩ ++ str "<<s>>>>") ++ [] =
            (pre ++ lineCommandT ⟨str "f", 1⟩) ++ str "<<s>>>>" := by
          rw [List.append_nil, List.append_assoc]
        have hpre' : ∀ c ∈ pre ++ lineCommandT ⟨str "f", 1⟩, c ≠ '<' := by
          intro c hmem
          rcases List.mem_append.mp hmem with hm | hm
          · exact hpre c hm
          · have : lineCommandT ⟨str "f", 1⟩ = str "/*line f:1*/" := by decide
            rw [this] at hm
            intro he
            subst he
            revert hm
            decide
        have := (ih.2) (pre ++ lineCommandT ⟨str "f", 1⟩) ⟨str "f", 1⟩ hpre'
        rw [← hform] at this
        simp only [expandEachWith, this]
      · intro pre loc hpre
        have hbase : findCodeRef (str "<<s>>>>") =
            some ([], str "s", str ">>") := by decide
        have hfind : findCodeRef (pre ++ str "<<s>>>>") =
            some (pre, str "s", str ">>") := by
          rw [findCodeRef_append_no_lt (str "<<s>>>>") hpre, hbase]
          simp
        have hname : canonicalCodeName (trimSpace (str "s")) = str "s" := by
          decide
        have hlook : lookupStore divStore (str "s") =
            some ⟨[⟨⟨str "f", 2⟩, str "<<u"⟩]⟩ := by decide
        simp only [expandLineF, hfind, hname, hlook]
        have htop : isTopLevelName (str "s") = false := by decide
        simp only [htop, Bool.false_eq_true, if_false, ite_false]
        have hblk : ([⟨⟨str "f", 2⟩, str "<<u"⟩] : List SourceLine) ≠ [] := by
          simp
        simp only [hblk, if_false, ite_false]
        have hitems : buildItems pre (str ">>") pre.length true
            [⟨⟨str "f", 2⟩, str "<<u"⟩] =
            [((pre ++ lineCommandT ⟨str "f", 2⟩ ++ str "<<u") ++ str ">>",
              ⟨str "f", 2⟩)] := by
          simp [buildItems]
        rw [hitems]
        have hglue : str "<<u" ++ str ">>" = str "<<u>>" := by decide
        have hform : (pre ++ lineCommandT ⟨str "f", 2⟩ ++ str "<<u") ++
              str ">>" =
            (pre ++ lineCommandT ⟨str "f", 2⟩) ++ str "<<u>>" := by
          rw [List.append_assoc, hglue]
        have hpre' : ∀ c ∈ pre ++ lineCommandT ⟨str "f", 2⟩, c ≠ '<' := by
          intro c hmem
          rcases List.mem_append.mp hmem with hm | hm
          · exact hpre c hm
          · have : lineCommandT ⟨str "f", 2⟩ = str "/*line f:2*/" := by decide
            rw [this] at hm
            intro he
            subst he
            revert hm
            decide
        have := (ih.1) (pre ++ lineCommandT ⟨str "f", 2⟩) ⟨str "f", 2⟩ hpre'
        rw [← hform] at this
        simp only [expandEachWith, this]

/-- C10 (counterexample): acyclicity of the static fragment-reference
graph does not make expansion terminate.  In `divStore` the only edge is
`u → s` (block `s`'s line `"<<u"` contains no complete reference, so the
graph is acyclic), yet expanding the line `"<<u>>"` returns no result at
any fuel: each splice of `s`'s unclosed `"<<u"` against the `">>"`
stored after `u`'s own reference re-creates `<<u>>` at the boundary, so
the Go recursion never comes back. -/
theorem C10_counterexample :
    staticAcyclic divStore = true ∧
    blockRefNames ⟨[⟨⟨str "f", 1⟩, str "<<s>>>>"⟩]⟩ = [str "s"] ∧
    blockRefNames ⟨[⟨⟨str "f", 2⟩, str "<<u"⟩]⟩ = [] ∧
    ∀ (fuel : Nat) (loc : FilePos),
      expandLineF divStore fuel (str "<<u>>") loc = none := by
  refine ⟨by decide, by decide, by decide, fun fuel loc => ?_⟩
  have := (divStore_diverges fuel).1 [] loc (by intro c hc; simp at hc)
  simpa using this

/-- C10 (amended): acyclicity of the static fragment-reference graph is
*not* sufficient for termination (see the counterexample: spliced
boundaries can re-form references the graph does not contain).  What
does hold: (1) under the strictly stronger dynamic condition that no
expansion path revisits a fragment (`NoRevisit` from the empty path —
stronger than necessary, e.g. it also rules out two harmless references
to the same fragment on one line), expansion returns (its output lines
or a diagnostic) with fuel one more than the number of distinct store
keys, so the Go recursion terminates; and (2) on the cyclic store
`a ↦ ["<<a>>"]` no amount of fuel makes the expansion of `"<<a>>"`
return — the expander has no depth bound or cycle check of its own. -/
theorem C10_expansion_termination :
    (∀ (blocks : BlockStore) (line : Str) (loc : FilePos),
      NoRevisit blocks [] line loc →
      (expandLineF blocks ((blocks.map Prod.fst).toFinset.card + 1)
        line loc).isSome) ∧
    (∀ fuel : Nat,
      expandLineF cycStore fuel (str "<<a>>") ⟨str "f", 1⟩ = none) := by
  constructor
  · intro blocks line loc h
    apply noRevisit_expand_isSome h
    have : (visited : List Str) → ([] : List Str).toFinset = ∅ := fun _ => rfl
    rw [List.toFinset_nil, Finset.sdiff_empty]
    omega
  · intro fuel
    have := cycStore_diverges fuel [] ⟨str "f", 1⟩ (by intro c hc; simp at hc)
    simpa using this

/-- Witness for the hypothesis side of `C10_expansion_termination`: a
concrete acyclic store and line on which the bound yields a result. -/
theorem C10_witness :
    (expandLineF [(str "x", ⟨[⟨⟨str "f", 1⟩, str "X"⟩]⟩)] 2
      (str "go <<x>> end") ⟨str "f", 9⟩).isSome := by
  have hnr : NoRevisit [(str "x", ⟨[⟨⟨str "f", 1⟩, str "X"⟩]⟩)] []
      (str "go <<x>> end") ⟨str "f", 9⟩ := by
    apply @NoRevisit.step [(str "x", ⟨[⟨⟨str "f", 1⟩, str "X"⟩]⟩)] []
      (str "go <<x>> end") ⟨str "f", 9⟩ (str "go ") (str "x") (str " end")
      ⟨[⟨⟨str "f", 1⟩, str "X"⟩]⟩ (by decide) (by decide) (by decide)
      (by simp) (by decide)
    intro lp hlp
    have hitems : buildItems (str "go ") (str " end") (str "go ").length true
        [⟨⟨str "f", 1⟩, str "X"⟩] =
        [((str "go " ++ lineCommandT ⟨str "f", 1⟩ ++ str "X") ++ str " end",
          ⟨str "f", 1⟩)] := by
      simp [buildItems]
    rw [hitems] at hlp
    rcases List.mem_singleton.mp hlp with rfl
    exact NoRevisit.noRef (by decide)
  have hcard : ((([(str "x", ⟨[⟨⟨str "f", 1⟩, str "X"⟩]⟩)] : BlockStore).map
      Prod.fst).toFinset.card + 1) = 2 := by decide
  have := (C10_expansion_termination).1
    [(str "x", ⟨[⟨⟨str "f", 1⟩, str "X"⟩]⟩)] (str "go <<x>> end") ⟨str "f", 9⟩ hnr
  rwa [hcard] at this

/-! ### Line classification (`computeLineType`) -/

inductive LineType where
  | textStart
  | codeStart
  | glitterLine
  | otherLine
deriving DecidableEq, Repr

/-- `textStartRegex` (`^\s*@(:+)`), applied after `lineMatchesWithArg`
has trimmed the line: the argument is the maximal run of colons. -/
def textStartArg (l : Str) : Option Str :=
  match trimSpace l with
  | '@' :: rest =>
      let colons := rest.takeWhile (· = ':')
      if colons = [] then none else some colons
  | _ => none

/-- `codeStartRegex` (`^\s*<<(.+)>>=\s*$`) on the trimmed line: the
whole line is `<<`, a nonempty greedy body, then `>>=`. -/
def codeStartArg (l : Str) : Option Str :=
  let t := trimSpace l
  if 6 ≤ t.length ∧ t.take 2 = str "<<" ∧ t.drop (t.length - 3) = str ">>=" then
    some ((t.drop 2).take (t.length - 5))
  else none

/-- `glitterRegex` (`^\s*@glitter(\s.*)?$`) on the trimmed line; the
argument is the (possibly empty) remainder including its leading space. -/
def glitterArg (l : Str) : Option Str :=
  let t := trimSpace l
  if t.take 8 = str "@glitter" then
    match t.drop 8 with
    | [] => some []
    | c :: rest => if goSpace c then some (c :: rest) else none
  else none

/-- `computeLineType`: first match wins. -/
def computeLineType (l : Str) : LineType × Str :=
  match textStartArg l with
  | some arg => (LineType.textStart, arg)
  | none =>
      match codeStartArg l with
      | some arg => (LineType.codeStart, arg)
      | none =>
          match glitterArg l with
          | some arg => (LineType.glitterLine, arg)
          | none => (LineType.otherLine, [])

/-! ### Path cleaning and output file names -/

def splitSlashAux : Str → Str → List Str
  | acc, [] => [acc.reverse]
  | acc, '/' :: rest => acc.reverse :: splitSlashAux [] rest
  | acc, c :: rest => splitSlashAux (c :: acc) rest

def splitOnSlash (l : Str) : List Str := splitSlashAux [] l

/-- One element of `filepath.Clean`'s lexical scan. -/
def cleanStep (rooted : Bool) (out : List Str) (e : Str) : List Str :=
  if e = [] ∨ e = ['.'] then out
  else if e = str ".." then
    match out.getLast? with
    | some last => if last = str ".." then out ++ [e] else out.dropLast
    | none => if rooted then out else out ++ [e]
  else out ++ [e]

/-- `filepath.Clean` (Unix separators). -/
def filepathClean (p : Str) : Str :=
  if p = [] then str "."
  else
    let rooted := p.head? = some '/'
    let out := (splitOnSlash p).foldl (cleanStep rooted) []
    let joined := (if rooted then ['/'] else []) ++ List.intercalate ['/'] out
    if joined = [] then str "." else joined

/-- `createOutputFilename`: clean, strip a `.gw` suffix, append `.go`. -/
def createOutputFilename (name : Str) : Str :=
  let n := filepathClean name
  let base := if (str ".gw").isSuffixOf n then n.take (n.length - 3) else n
  base ++ str ".go"

/-! ### Top-level name parsing (`topLevelRegex`) -/

/-- `\s*(\d+)?\s*$`: the digit group, `[]` when absent, `none` when the
tail does not match. -/
def digitsTail (t : Str) : Option Str :=
  let t1 := t.dropWhile goSpace
  if t1 = [] then some []
  else
    let d := t1.takeWhile Char.isDigit
    if d = [] then none
    else if (t1.drop d.length).dropWhile goSpace = [] then some d else none

/-- All ways to read a leading `".*"` group (greedy first): the group
text including quotes, with the rest of the string. -/
def quoteCandidates (s1 : Str) : List (Str × Str) :=
  match s1 with
  | '"' :: rest =>
      (List.range rest.length).reverse.filterMap fun i =>
        if rest[i]? = some '"' then
          some ('"' :: rest.take (i + 1), rest.drop (i + 1))
        else none
  | _ => []

/-- `topLevelRegex` (`^\*\s*(".*")?\s*(\d+)?\s*$`): the two capture
groups, each `[]` when absent. -/
def parseTopLevelGroups (name : Str) : Option (Str × Str) :=
  match name with
  | '*' :: rest =>
      let s1 := rest.dropWhile goSpace
      match s1 with
      | '"' :: _ =>
          (quoteCandidates s1).findSome? fun qt =>
            (digitsTail qt.2).map fun d => (qt.1, d)
      | _ => (digitsTail s1).map fun d => (([] : Str), d)
  | _ => none

def natOfDigits (ds : Str) : Nat :=
  ds.foldl (fun acc c => acc * 10 + (c.toNat - 48)) 0

/-- `trimQuotes`. -/
def trimQuotes (s : Str) : Str :=
  let s1 := trimSpace s
  let s2 := match s1 with | '"' :: rest => rest | other => other
  if (str "\"").isSuffixOf s2 then s2.take (s2.length - 1) else s2

/-- `parseTopLevelName`: resolve the optional filename (cleaned, else
the default) and the optional order (else 0); `none` when the shape does
not match. -/
def parseTopLevelName (name defaultFile : Str) : Option (Str × Nat) :=
  match parseTopLevelGroups name with
  | none => none
  | some (g1, g2) =>
      let filename :=
        if g1.head? = some '"' then filepathClean (trimQuotes g1) else defaultFile
      let order := natOfDigits g2
      some (filename, order)

/-- `splitTopLevelName`: inverse for fully-resolved names; the digit
group must be present (`strconv.Atoi("")` fails). -/
def splitTopLevelName (name : Str) : Option (Str × Nat) :=
  match parseTopLevelGroups name with
  | none => none
  | some (g1, g2) =>
      if g2 = [] then none else some (trimQuotes g1, natOfDigits g2)

/-! ### `tangleReadBlocks` as a fold over the scanned line stream -/

/-- A line as delivered by `GlitterScanner`, together with the include
depth at which it was read (`scanner.Depth()`). -/
structure ScanLine where
  pos : FilePos
  line : Str
  depth : Nat
deriving DecidableEq, Repr

inductive PState where
  | start
  | inCode
  | inText
deriving DecidableEq, Repr

structure TangleState where
  blocks : BlockStore
  codeName : Str
  currentBlock : Option Block
  pstate : PState
  currentFilename : Str
  defaultFilename : Str
deriving DecidableEq, Repr

/-- `prependLineNumber`: prefix the first line with its line pragma. -/
def prependLineNumber (b : Block) : Block :=
  match b.lines with
  | [] => b
  | sl :: rest => ⟨{ sl with line := lineCommandT sl.pos ++ sl.line } :: rest⟩

/-- Go map assignment `blocks[codeName] = v`. -/
def insertStore : BlockStore → Str → Block → BlockStore
  | [], k, v => [(k, v)]
  | (k', v') :: rest, k, v =>
      if k' = k then (k', v) :: rest else (k', v') :: insertStore rest k v

/-- The `finalizeBlock` closure of `tangleReadBlocks`: finalise the
current block (`none` = the slice fault of `removeBlankLines`), prepend
the join-point pragma when the name already has an entry, and
concatenate. -/
def tangleFinalize (st : TangleState) : Option TangleState :=
  match st.currentBlock with
  | none => some st
  | some cb =>
      match finalizeContent cb with
      | none => none
      | some b2 =>
          let joined :=
            match lookupStore st.blocks st.codeName with
            | some b1 => appendBlocks b1 (prependLineNumber b2)
            | none => appendBlocks ⟨[]⟩ b2
          some { st with
            blocks := insertStore st.blocks st.codeName joined,
            codeName := [],
            currentBlock := none }

/-- The fully-resolved store key `fmt.Sprintf("* \"%s\" %d", f, order)`. -/
def topLevelKey (filename : Str) (order : Nat) : Str :=
  str "* \"" ++ filename ++ '"' :: ' ' :: (Nat.repr order).data

/-- One line of `tangleReadBlocks`'s loop. -/
def tangleStep (st : TangleState) (l : ScanLine) : Except GoError TangleState :=
  let st0 :=
    if l.pos.filename ≠ st.defaultFilename ∧ l.depth = 1 then
      { st with defaultFilename := createOutputFilename l.pos.filename }
    else st
  match computeLineType l.line with
  | (LineType.textStart, _) =>
      match tangleFinalize st0 with
      | none => Except.error GoError.panicked
      | some st1 => Except.ok { st1 with pstate := PState.inText }
  | (LineType.codeStart, arg) =>
      match tangleFinalize st0 with
      | none => Except.error GoError.panicked
      | some st1 =>
          let st2 := { st1 with pstate := PState.inCode }
          let cn := canonicalCodeName arg
          if isTopLevelName cn then
            match parseTopLevelName cn st2.currentFilename with
            | none => Except.error (GoError.badTopLevelName l.pos cn)
            | some (filename, order) =>
                let filename :=
                  if filename = [] ∨ filename = str "." then st2.defaultFilename
                  else filename
                Except.ok { st2 with
                  currentFilename := filename,
                  codeName := topLevelKey filename order,
                  currentBlock := some ⟨[]⟩ }
          else
            Except.ok { st2 with codeName := cn, currentBlock := some ⟨[]⟩ }
  | (LineType.glitterLine, _) =>
      Except.ok { st0 with
        defaultFilename := createOutputFilename l.pos.filename,
        currentFilename := createOutputFilename l.pos.filename }
  | (LineType.otherLine, _) =>
      if st0.pstate = PState.inCode then
        match st0.currentBlock with
        | some cb => Except.ok { st0 with currentBlock := some ⟨cb.lines ++ [⟨l.pos, l.line⟩]⟩ }
        | none => Except.ok st0
      else Except.ok st0

/-- `tangleReadBlocks` over a scanned stream. -/
def tangleRun (stream : List ScanLine) : Except GoError TangleState :=
  match stream.foldlM tangleStep ⟨[], [], none, PState.start, [], []⟩ with
  | Except.error e => Except.error e
  | Except.ok st =>
      match tangleFinalize st with
      | none => Except.error GoError.panicked
      | some st' => Except.ok st'

deriving instance DecidableEq for Except

/-! ### Claims C4 and C9 -/

/-- C4: finalising a collected definition.  A first definition of a name
is stored as its finalised block unchanged; a second-or-later definition
is concatenated onto the accumulated block after the tangle line-pragma
of its own (finalised) first line is prepended at the join point. -/
theorem C4_second_definition_join (st : TangleState) (cb b2 : Block)
    (hcb : st.currentBlock = some cb)
    (hfin : finalizeContent cb = some b2) :
    (lookupStore st.blocks st.codeName = none →
      tangleFinalize st = some { st with
        blocks := insertStore st.blocks st.codeName b2,
        codeName := [], currentBlock := none }) ∧
    (∀ b1, lookupStore st.blocks st.codeName = some b1 →
      tangleFinalize st = some { st with
        blocks := insertStore st.blocks st.codeName
          (appendBlocks b1 (prependLineNumber b2)),
        codeName := [], currentBlock := none }) ∧
    (∀ sl rest, b2.lines = sl :: rest →
      (prependLineNumber b2).lines =
        { sl with line := lineCommandT sl.pos ++ sl.line } :: rest) := by
  refine ⟨?_, ?_, ?_⟩
  · intro hnone
    have hb2 : appendBlocks ⟨[]⟩ b2 = b2 := by
      cases b2; rfl
    simp only [tangleFinalize, hcb, hfin, hnone, hb2]
  · intro b1 hsome
    simp only [tangleFinalize, hcb, hfin, hsome]
  · intro sl rest hlines
    simp only [prependLineNumber, hlines]

/-- Witness for `C4_second_definition_join`: the state reached just
before the end of a run with two definitions of `a` (bodies `x1` and
`y1`/`y2`), together with the whole-run store content. -/
theorem C4_witness :
    tangleFinalize
        ⟨[(str "a", ⟨[⟨⟨str "f.gw", 2⟩, str "x1"⟩]⟩)], str "a",
          some ⟨[⟨⟨str "f.gw", 5⟩, str "  y1"⟩, ⟨⟨str "f.gw", 6⟩, str "  y2"⟩]⟩,
          PState.inCode, [], str "f.go"⟩ =
      some ⟨[(str "a",
          ⟨[⟨⟨str "f.gw", 2⟩, str "x1"⟩,
            ⟨⟨str "f.gw", 5⟩, str "/*line f.gw:5*/y1"⟩,
            ⟨⟨str "f.gw", 6⟩, str "y2"⟩]⟩)], [], none, PState.inCode, [],
          str "f.go"⟩ ∧
    tangleRun
        [⟨⟨str "f.gw", 1⟩, str "<<a>>=", 1⟩,
         ⟨⟨str "f.gw", 2⟩, str "x1", 1⟩,
         ⟨⟨str "f.gw", 3⟩, str "@: text", 1⟩,
         ⟨⟨str "f.gw", 4⟩, str "<<A>>=", 1⟩,
         ⟨⟨str "f.gw", 5⟩, str "  y1", 1⟩,
         ⟨⟨str "f.gw", 6⟩, str "  y2", 1⟩] =
      Except.ok ⟨[(str "a",
          ⟨[⟨⟨str "f.gw", 2⟩, str "x1"⟩,
            ⟨⟨str "f.gw", 5⟩, str "/*line f.gw:5*/y1"⟩,
            ⟨⟨str "f.gw", 6⟩, str "y2"⟩]⟩)], [], none, PState.inCode, [],
          str "f.go"⟩ := by
  constructor
  · have happ := (C4_second_definition_join
      ⟨[(str "a", ⟨[⟨⟨str "f.gw", 2⟩, str "x1"⟩]⟩)], str "a",
        some ⟨[⟨⟨str "f.gw", 5⟩, str "  y1"⟩, ⟨⟨str "f.gw", 6⟩, str "  y2"⟩]⟩,
        PState.inCode, [], str "f.go"⟩
      ⟨[⟨⟨str "f.gw", 5⟩, str "  y1"⟩, ⟨⟨str "f.gw", 6⟩, str "  y2"⟩]⟩
      ⟨[⟨⟨str "f.gw", 5⟩, str "y1"⟩, ⟨⟨str "f.gw", 6⟩, str "y2"⟩]⟩
      rfl (by decide)).2.1 ⟨[⟨⟨str "f.gw", 2⟩, str "x1"⟩]⟩ (by decide)
    rw [happ]
    decide
  · decide

/-- C9 (amended): a `@glitter` directive line — *any* directive, not
only `top` — contributes no line to any block and leaves the store, the
current block, the current code name and the parser state untouched, but
always resets both the current and the default output filename to the
current file's name with the tangle extension. -/
theorem C9_directive_step (st : TangleState) (l : ScanLine)
    (h : (computeLineType l.line).1 = LineType.glitterLine) :
    tangleStep st l = Except.ok { st with
      currentFilename := createOutputFilename l.pos.filename,
      defaultFilename := createOutputFilename l.pos.filename } := by
  rcases hct : computeLineType l.line with ⟨t, arg⟩
  rw [hct] at h
  subst h
  simp only [tangleStep, hct]
  split <;> rfl

/-- C9 (counterexample): `@glitter hide` does *not* leave the output
filename context unchanged — it resets it, so a later bare `<<*>>=`
block lands in `f.go` instead of the previously selected `x.txt`. -/
theorem C9_counterexample :
    tangleStep
        ⟨[(str "* \"x.txt\" 0", ⟨[⟨⟨str "f.gw", 2⟩, str "A"⟩]⟩)], [],
          none, PState.inText, str "x.txt", str "f.go"⟩
        ⟨⟨str "f.gw", 3⟩, str "@glitter hide", 1⟩ =
      Except.ok
        ⟨[(str "* \"x.txt\" 0", ⟨[⟨⟨str "f.gw", 2⟩, str "A"⟩]⟩)], [],
          none, PState.inText, str "f.go", str "f.go"⟩ ∧
    str "f.go" ≠ str "x.txt" ∧
    (match tangleRun
        [⟨⟨str "f.gw", 1⟩, str "<<* \"x.txt\" 0>>=", 1⟩,
         ⟨⟨str "f.gw", 2⟩, str "A", 1⟩,
         ⟨⟨str "f.gw", 3⟩, str "@glitter hide", 1⟩,
         ⟨⟨str "f.gw", 4⟩, str "<<*>>=", 1⟩,
         ⟨⟨str "f.gw", 5⟩, str "B", 1⟩] with
      | Except.ok st => lookupStore st.blocks (str "* \"f.go\" 0")
      | Except.error _ => none) =
      some ⟨[⟨⟨str "f.gw", 5⟩, str "B"⟩]⟩ := by
  refine ⟨by decide, by decide, by decide⟩

/-- Witness for `C9_directive_step` at a concrete state and directive
line (`@glitter hide`). -/
theorem C9_witness :
    ((computeLineType (str "@glitter hide")).1 = LineType.glitterLine) ∧
      tangleStep
          ⟨[], [], none, PState.start, str "x.txt", str "old.go"⟩
          ⟨⟨str "f.gw", 3⟩, str "@glitter hide", 1⟩ =
        Except.ok { (⟨[], [], none, PState.start, str "x.txt", str "old.go"⟩ :
            TangleState) with
          currentFilename := createOutputFilename (str "f.gw"),
          defaultFilename := createOutputFilename (str "f.gw") } :=
  ⟨by decide,
    C9_directive_step ⟨[], [], none, PState.start, str "x.txt", str "old.go"⟩
      ⟨⟨str "f.gw", 3⟩, str "@glitter hide", 1⟩ (by decide)⟩

/-! ### Sorting top-level blocks (claim C5) -/

/-- `cmp.Compare` on Go strings: lexicographic byte order, which for
UTF-8 agrees with code-point order. -/
def cmpStr : Str → Str → Ordering
  | [], [] => Ordering.eq
  | [], _ :: _ => Ordering.lt
  | _ :: _, [] => Ordering.gt
  | a :: as, b :: bs =>
      if a.toNat < b.toNat then Ordering.lt
      else if b.toNat < a.toNat then Ordering.gt
      else cmpStr as bs

/-- `cmp.Compare` on integers. -/
def cmpNat (a b : Nat) : Ordering :=
  if a < b then Ordering.lt else if b < a then Ordering.gt else Ordering.eq

/-- The `slices.SortFunc` comparator of `getTopLevelBlocks`: by
filename, then by order number. -/
def cmpTop (a b : Str × Nat) : Ordering :=
  match cmpStr a.1 b.1 with
  | Ordering.eq => cmpNat a.2 b.2
  | o => o

def topSortKey (k : Str) : Str × Nat := (splitTopLevelName k).getD ([], 0)

/-- `a` sorts no later than `b` under the tangle comparator. -/
def topLE (a b : Str) : Prop :=
  cmpTop (topSortKey a) (topSortKey b) ≠ Ordering.gt

instance : DecidableRel topLE := fun a b => by
  unfold topLE
  infer_instance

theorem cmpStr_eq_congr_left : ∀ {a b : Str}, cmpStr a b = Ordering.eq →
    ∀ c, cmpStr a c = cmpStr b c := by
  intro a
  induction a with
  | nil =>
      intro b h c
      cases b with
      | nil => rfl
      | cons y ys => simp [cmpStr] at h
  | cons x xs ih =>
      intro b h c
      cases b with
      | nil => simp [cmpStr] at h
      | cons y ys =>
          simp only [cmpStr] at h
          by_cases h1 : x.toNat < y.toNat
          · simp [h1] at h
          · by_cases h2 : y.toNat < x.toNat
            · simp [h1, h2] at h
            · rw [if_neg h1, if_neg h2] at h
              cases c with
              | nil => simp [cmpStr]
              | cons z zs =>
                  simp only [cmpStr]
                  have hxy : x.toNat = y.toNat := by omega
                  rw [hxy, ih h zs]

theorem cmpStr_eq_congr_right : ∀ {b c : Str}, cmpStr b c = Ordering.eq →
    ∀ a, cmpStr a b = cmpStr a c := by
  intro b
  induction b with
  | nil =>
      intro c h a
      cases c with
      | nil => rfl
      | cons z zs => simp [cmpStr] at h
  | cons y ys ih =>
      intro c h a
      cases c with
      | nil => simp [cmpStr] at h
      | cons z zs =>
          simp only [cmpStr] at h
          by_cases h1 : y.toNat < z.toNat
          · simp [h1] at h
          · by_cases h2 : z.toNat < y.toNat
            · simp [h1, h2] at h
            · rw [if_neg h1, if_neg h2] at h
              cases a with
              | nil => simp [cmpStr]
              | cons x xs =>
                  simp only [cmpStr]
                  have hyz : y.toNat = z.toNat := by omega
                  rw [hyz, ih h xs]

theorem cmpStr_lt_trans : ∀ {a b c : Str}, cmpStr a b = Ordering.lt →
    cmpStr b c = Ordering.lt → cmpStr a c = Ordering.lt := by
  intro a
  induction a with
  | nil =>
      intro b c hab hbc
      cases c with
      | nil =>
          cases b with
          | nil => simp [cmpStr] at hab
          | cons y ys => simp [cmpStr] at hbc
      | cons z zs => simp [cmpStr]
  | cons x xs ih =>
      intro b c hab hbc
      cases b with
      | nil => simp [cmpStr] at hab
      | cons y ys =>
          cases c with
          | nil => simp [cmpStr] at hbc
          | cons z zs =>
              simp only [cmpStr] at hab hbc ⊢
              by_cases h1 : x.toNat < y.toNat
              · by_cases h2 : y.toNat < z.toNat
                · rw [if_pos (by omega : x.toNat < z.toNat)]
                · by_cases h3 : z.toNat < y.toNat
                  · simp [h2, h3] at hbc
                  · rw [if_pos (by omega : x.toNat < z.toNat)]
              · by_cases h2 : y.toNat < x.toNat
                · simp [h1, h2] at hab
                · rw [if_neg h1, if_neg h2] at hab
                  by_cases h3 : y.toNat < z.toNat
                  · rw [if_pos (by omega : x.toNat < z.toNat)]
                  · by_cases h4 : z.toNat < y.toNat
                    · simp [h3, h4] at hbc
                    · rw [if_neg h3, if_neg h4] at hbc
                      rw [if_neg (by omega : ¬ x.toNat < z.toNat),
                        if_neg (by omega : ¬ z.toNat < x.toNat)]
                      exact ih hab hbc

theorem cmpStr_swap : ∀ (a b : Str), cmpStr b a = (cmpStr a b).swap := by
  intro a
  induction a with
  | nil =>
      intro b
      cases b <;> rfl
  | cons x xs ih =>
      intro b
      cases b with
      | nil => rfl
      | cons y ys =>
          simp only [cmpStr]
          by_cases h1 : x.toNat < y.toNat
          · rw [if_pos h1, if_pos h1, if_neg (by omega : ¬ y.toNat < x.toNat)]
            rfl
          · by_cases h2 : y.toNat < x.toNat
            · rw [if_pos h2, if_neg h1, if_pos h2]
              rfl
            · rw [if_neg h1, if_neg h2, if_neg h2, if_neg h1, ih ys]

theorem topLE_total (a b : Str) : topLE a b ∨ topLE b a := by
  unfold topLE cmpTop
  by_cases hab : cmpStr (topSortKey a).1 (topSortKey b).1 = Ordering.gt
  · right
    rw [cmpStr_swap, hab]
    simp [Ordering.swap]
  · by_cases hab2 : cmpStr (topSortKey a).1 (topSortKey b).1 = Ordering.lt
    · left
      rw [hab2]
      simp
    · have heq : cmpStr (topSortKey a).1 (topSortKey b).1 = Ordering.eq := by
        cases h : cmpStr (topSortKey a).1 (topSortKey b).1 <;> simp_all
      have heq' : cmpStr (topSortKey b).1 (topSortKey a).1 = Ordering.eq := by
        rw [cmpStr_swap, heq]
        rfl
      rw [heq, heq']
      unfold cmpNat
      by_cases hn : (topSortKey a).2 < (topSortKey b).2
      · left
        rw [if_pos hn]
        simp
      · right
        by_cases hba : (topSortKey b).2 < (topSortKey a).2
        · rw [if_pos hba]
          simp
        · rw [if_neg hba, if_neg hn]
          simp

theorem topLE_trans (a b c : Str) (hab : topLE a b) (hbc : topLE b c) :
    topLE a c := by
  unfold topLE cmpTop at hab hbc ⊢
  rcases h1 : cmpStr (topSortKey a).1 (topSortKey b).1 with _ | _ | _ <;>
    rcases h2 : cmpStr (topSortKey b).1 (topSortKey c).1 with _ | _ | _ <;>
      rw [h1] at hab <;> rw [h2] at hbc
  · rw [cmpStr_lt_trans h1 h2]; simp
  · rw [← cmpStr_eq_congr_right h2 (topSortKey a).1, h1]; simp
  · exact absurd rfl hbc
  · rw [cmpStr_eq_congr_left h1 (topSortKey c).1, h2]; simp
  · rw [cmpStr_eq_congr_left h1 (topSortKey c).1, h2]
    unfold cmpNat at hab hbc ⊢
    by_cases hx : (topSortKey a).2 < (topSortKey b).2 <;>
      by_cases hy : (topSortKey b).2 < (topSortKey c).2 <;>
        simp_all <;> omega
  · exact absurd rfl hbc
  · exact absurd rfl hab
  · exact absurd rfl hab
  · exact absurd rfl hab

instance : IsTotal Str topLE := ⟨topLE_total⟩

instance : IsTrans Str topLE := ⟨topLE_trans⟩

/-- `getTopLevelBlocks`: collect the top-level keys and sort them with
the `(filename, order)` comparator; a key that `splitTopLevelName`
rejects panics inside the comparison function, recovered as an error
(a single key is never compared). -/
def getTopLevelBlocks (blocks : BlockStore) : Except GoError (List Str) :=
  let keys := (blocks.map Prod.fst).filter isTopLevelName
  if keys.length ≤ 1 then Except.ok keys
  else if keys.all (fun k => (splitTopLevelName k).isSome) then
    Except.ok (keys.insertionSort topLE)
  else Except.error GoError.cmpError

/-! ### The tangle write loop (claim C5) -/

/-- Observable file-system actions of `Tangle`'s write loop: `create`
truncates/creates an output file (`os.Create`), `sep` is the blank-line
separator written between blocks of the same file, `text` is a block's
expanded content. -/
inductive WEvent where
  | create (f : Str)
  | sep
  | text (s : Str)
deriving DecidableEq, Repr

/-- The per-line body of `expandAndWriteBlock`: expand each line and
write each resulting line through the no-op pass, newline-terminated. -/
def writeBlockLines (blocks : BlockStore) (fuel : Nat) :
    List SourceLine → Option (Except GoError Str)
  | [] => some (Except.ok [])
  | sl :: rest =>
      match expandLineF blocks fuel sl.line sl.pos with
      | none => none
      | some (Except.error e) => some (Except.error e)
      | some (Except.ok ls) =>
          match writeBlockLines blocks fuel rest with
          | none => none
          | some (Except.error e) => some (Except.error e)
          | some (Except.ok txt) =>
              some (Except.ok
                ((ls.map fun e => replaceNoOpChars e ++ ['\n']).join ++ txt))

/-- `expandAndWriteBlock`: the text contributed by one block — its first
line's pragma (for a non-empty block) followed by the expanded lines. -/
def expandAndWriteBlock (b : Block) (blocks : BlockStore) (fuel : Nat) :
    Option (Except GoError Str) :=
  match writeBlockLines blocks fuel b.lines with
  | some (Except.ok txt) =>
      some (Except.ok
        ((match b.lines with
          | [] => []
          | sl :: _ => lineCommandT sl.pos) ++ txt))
  | other => other

def perBlock (blocks : BlockStore) (fuel : Nat) (b : Str) :
    Option (Except GoError Str) :=
  expandAndWriteBlock ((lookupStore blocks b).getD ⟨[]⟩) blocks fuel

def contentOf (blocks : BlockStore) (fuel : Nat) (b : Str) : Str :=
  match perBlock blocks fuel b with
  | some (Except.ok c) => c
  | _ => []

/-- The write loop of `Tangle` over the sorted top-level names, with the
current output filename threaded through. -/
def tangleWriteEvents (blocks : BlockStore) (fuel : Nat) :
    List Str → Str → Option (Except GoError (List WEvent))
  | [], _ => some (Except.ok [])
  | b :: rest, curF =>
      match splitTopLevelName b with
      | none => some (Except.error (GoError.internalBadTopLevel b))
      | some fo =>
          match perBlock blocks fuel b with
          | none => none
          | some (Except.error e) => some (Except.error e)
          | some (Except.ok c) =>
              match tangleWriteEvents blocks fuel rest fo.1 with
              | none => none
              | some (Except.error e) => some (Except.error e)
              | some (Except.ok evs) =>
                  if fo.1 ≠ curF then
                    some (Except.ok (WEvent.create fo.1 :: WEvent.text c :: evs))
                  else
                    some (Except.ok (WEvent.sep :: WEvent.text c :: evs))

/-- `Tangle` after the read pass: sort, reject an empty selection, then
write (the current filename starts out empty). -/
def TangleF (blocks : BlockStore) (fuel : Nat) :
    Option (Except GoError (List WEvent)) :=
  match getTopLevelBlocks blocks with
  | Except.error e => some (Except.error e)
  | Except.ok tops =>
      if tops = [] then some (Except.error GoError.noTopLevelBlocks)
      else tangleWriteEvents blocks fuel tops []

/-- The write policy in the words of the claim: a block whose filename
equals the current output filename is separated from its predecessor by
exactly one blank line; otherwise the new file is created fresh first. -/
def specEvents : List (Str × Str) → Str → List WEvent
  | [], _ => []
  | (f, c) :: rest, curF =>
      (if f = curF then [WEvent.sep] else [WEvent.create f]) ++
        WEvent.text c :: specEvents rest f

/-- C5: (1) the top-level names are emitted sorted ascending by
`(filename, order)` with lexicographic filename comparison, and they are
exactly the store's top-level keys; (2) the write loop creates a fresh
output file exactly when a block's filename differs from the current
output filename, and otherwise separates consecutive blocks of the same
file with exactly one blank line. -/
theorem C5_tangle_write_order (blocks : BlockStore) (fuel : Nat) :
    (∀ tops, getTopLevelBlocks blocks = Except.ok tops →
      List.Sorted topLE tops ∧
      tops.Perm ((blocks.map Prod.fst).filter isTopLevelName)) ∧
    (∀ (names : List Str) (curF : Str),
      (∀ b ∈ names, (splitTopLevelName b).isSome) →
      (∀ b ∈ names, ∃ c, perBlock blocks fuel b = some (Except.ok c)) →
      tangleWriteEvents blocks fuel names curF =
        some (Except.ok (specEvents
          (names.map fun b =>
            (((splitTopLevelName b).getD ([], 0)).1, contentOf blocks fuel b))
          curF))) := by
  constructor
  · intro tops htops
    unfold getTopLevelBlocks at htops
    by_cases hlen : ((blocks.map Prod.fst).filter isTopLevelName).length ≤ 1
    · rw [if_pos hlen] at htops
      cases htops
      refine ⟨?_, List.Perm.refl _⟩
      cases hk : (blocks.map Prod.fst).filter isTopLevelName with
      | nil => simp [List.Sorted]
      | cons a t =>
          cases t with
          | nil => simp [List.Sorted]
          | cons a2 t2 => rw [hk] at hlen; simp at hlen
    · rw [if_neg hlen] at htops
      by_cases hall : ((blocks.map Prod.fst).filter isTopLevelName).all
          (fun k => (splitTopLevelName k).isSome)
      · rw [if_pos hall] at htops
        cases htops
        exact ⟨List.sorted_insertionSort topLE _, List.perm_insertionSort topLE _⟩
      · rw [if_neg hall] at htops
        cases htops
  · intro names
    induction names with
    | nil => intro curF _ _; rfl
    | cons b rest ih =>
        intro curF hsplit hcontent
        have hb : (splitTopLevelName b).isSome :=
          hsplit b (List.mem_cons_self b rest)
        rcases Option.isSome_iff_exists.mp hb with ⟨fo, hfo⟩
        rcases hcontent b (List.mem_cons_self b rest) with ⟨c, hc⟩
        have hrest := ih fo.1
          (fun x hx => hsplit x (List.mem_cons_of_mem b hx))
          (fun x hx => hcontent x (List.mem_cons_of_mem b hx))
        simp only [tangleWriteEvents, hfo, hc, hrest]
        have hcof : contentOf blocks fuel b = c := by
          unfold contentOf
          rw [hc]
        simp only [List.map_cons, specEvents, hfo, Option.getD_some, hcof]
        by_cases hf : fo.1 = curF
        · rw [if_neg (by simpa using hf), if_pos hf]
          rfl
        · rw [if_pos (by simpa using hf), if_neg hf]
          rfl

/-- Witness for `C5_tangle_write_order` on a three-block store: the
spec's S4 ordering scenario plus a second output file. -/
theorem C5_witness :
    (List.Sorted topLE
        [str "* \"a.out\" 1", str "* \"a.out\" 2", str "* \"b.txt\" 0"] ∧
      List.Perm [str "* \"a.out\" 1", str "* \"a.out\" 2", str "* \"b.txt\" 0"]
        ((([(str "* \"a.out\" 2", (⟨[⟨⟨str "f.gw", 2⟩, str "two"⟩]⟩ : Block)),
            (str "* \"a.out\" 1", ⟨[⟨⟨str "f.gw", 4⟩, str "one"⟩]⟩),
            (str "* \"b.txt\" 0", ⟨[⟨⟨str "f.gw", 6⟩, str "bee"⟩]⟩)] :
            BlockStore).map Prod.fst).filter isTopLevelName)) ∧
    tangleWriteEvents
        [(str "* \"a.out\" 2", ⟨[⟨⟨str "f.gw", 2⟩, str "two"⟩]⟩),
         (str "* \"a.out\" 1", ⟨[⟨⟨str "f.gw", 4⟩, str "one"⟩]⟩),
         (str "* \"b.txt\" 0", ⟨[⟨⟨str "f.gw", 6⟩, str "bee"⟩]⟩)] 1
        [str "* \"a.out\" 1", str "* \"a.out\" 2", str "* \"b.txt\" 0"] [] =
      some (Except.ok (specEvents
        ([str "* \"a.out\" 1", str "* \"a.out\" 2", str "* \"b.txt\" 0"].map
          fun b =>
            (((splitTopLevelName b).getD ([], 0)).1,
             contentOf
               [(str "* \"a.out\" 2", ⟨[⟨⟨str "f.gw", 2⟩, str "two"⟩]⟩),
                (str "* \"a.out\" 1", ⟨[⟨⟨str "f.gw", 4⟩, str "one"⟩]⟩),
                (str "* \"b.txt\" 0", ⟨[⟨⟨str "f.gw", 6⟩, str "bee"⟩]⟩)] 1 b))
        [])) := by
  constructor
  · exact (C5_tangle_write_order
      [(str "* \"a.out\" 2", ⟨[⟨⟨str "f.gw", 2⟩, str "two"⟩]⟩),
       (str "* \"a.out\" 1", ⟨[⟨⟨str "f.gw", 4⟩, str "one"⟩]⟩),
       (str "* \"b.txt\" 0", ⟨[⟨⟨str "f.gw", 6⟩, str "bee"⟩]⟩)] 1).1
      [str "* \"a.out\" 1", str "* \"a.out\" 2", str "* \"b.txt\" 0"] (by decide)
  · exact (C5_tangle_write_order
      [(str "* \"a.out\" 2", ⟨[⟨⟨str "f.gw", 2⟩, str "two"⟩]⟩),
       (str "* \"a.out\" 1", ⟨[⟨⟨str "f.gw", 4⟩, str "one"⟩]⟩),
       (str "* \"b.txt\" 0", ⟨[⟨⟨str "f.gw", 6⟩, str "bee"⟩]⟩)] 1).2
      [str "* \"a.out\" 1", str "* \"a.out\" 2", str "* \"b.txt\" 0"] []
      (by decide) (by
        intro b hb
        fin_cases hb <;> exact ⟨_, rfl⟩)

/-! ### The weave engine (claims C2 and C8) -/

/-- The configuration values consulted by `Weave` (after `ReadConfig`,
so `StartCode` already carries its `%s` placeholder). -/
structure WConfig where
  startTpl : Str
  startBook : Str
  endBook : Str
  startText : Str
  endText : Str
  startCode : Str
  endCode : Str
  codeEscape : Str
  codeRef : Str
  escapeSub : Str
  inlineCode : Str
  codeSet : Str
  weaveLineRef : Str
deriving DecidableEq, Repr

/-- `WeaveBlockInfo`. -/
structure WeaveBlockInfo where
  count : Nat
  firstBlockNum : Nat
  firstMention : FilePos
  referencedFrom : List Int
deriving DecidableEq, Repr

/-- The weave fragment graph, `map[string]WeaveBlockInfo`, as an
association list in first-registration order. -/
abbrev Graph := List (Str × WeaveBlockInfo)

def alookup {β : Type} : List (Str × β) → Str → Option β
  | [], _ => none
  | (k', v) :: rest, k => if k' = k then some v else alookup rest k

def aset {β : Type} : List (Str × β) → Str → β → List (Str × β)
  | [], k, v => [(k, v)]
  | (k', v') :: rest, k, v =>
      if k' = k then (k', v) :: rest else (k', v') :: aset rest k v

/-- The canonical names of all `<<...>>` references on a line, in match
order, each paired with the line's position. -/
def lineMentions (line : Str) (pos : FilePos) : List (Str × FilePos) :=
  (findAllCodeRefs line).map fun r => (canonicalCodeName r, pos)

/-- Registering one mention: an unseen name is appended with the next
block id, count 0 and the current position as its first mention. -/
def regMention (acc : Graph × Nat) (m : Str × FilePos) : Graph × Nat :=
  match alookup acc.1 m.1 with
  | some _ => acc
  | none => (acc.1 ++ [(m.1, ⟨0, acc.2 + 1, m.2, []⟩)], acc.2 + 1)

/-- `registerBlockRefs`. -/
def registerBlockRefs (g : Graph) (blockId : Nat) (line : Str)
    (pos : FilePos) : Graph × Nat :=
  (lineMentions line pos).foldl regMention (g, blockId)

/-- `strings.Replace`-style single-pattern global replacement
(`strings.ReplaceAll`), for a nonempty pattern. -/
def replaceAllAux (pat sub : Str) : Nat → Str → Str
  | 0, l => l
  | _fuel+1, [] => []
  | fuel+1, c :: rest =>
      if pat.isPrefixOf (c :: rest) then
        sub ++ replaceAllAux pat sub fuel ((c :: rest).drop pat.length)
      else c :: replaceAllAux pat sub fuel rest

def replaceAll (pat sub l : Str) : Str :=
  if pat = [] then l else replaceAllAux pat sub l.length l

/-- `escapeCodeEscapes`: inside every `<<...>>` match region, replace
the escape character by `EscapeSub`; text between regions is kept. -/
def escapeCodeEscapesAux (esc sub : Str) : Nat → Str → Str
  | 0, l => l
  | fuel+1, l =>
      match findCodeRef l with
      | none => l
      | some (before, inner, after) =>
          before ++
            replaceAll esc sub (str "<<" ++ inner ++ str ">>") ++
            escapeCodeEscapesAux esc sub fuel after

def escapeCodeEscapes (esc sub l : Str) : Str :=
  escapeCodeEscapesAux esc sub (l.length + 1) l

def intRepr (i : Int) : Str :=
  if i < 0 then '-' :: (Nat.repr i.natAbs).data else (Nat.repr i.toNat).data

def insertRefFrom (l : List Int) (x : Int) : List Int :=
  if x ∈ l then l else l ++ [x]

/-- The `ReplaceAllStringFunc` body of `weaveCodeRefs`: replace each
reference by the expanded template (`blockid` is the stored first block
number, or the `??` placeholder when the — possibly escape-rewritten —
name misses the map), recording the calling block in `referencedFrom`. -/
def weaveRefsSub (replacement : Str) (callingBlockId : Int) :
    Nat → Graph → Str → Graph × Str
  | 0, g, l => (g, l)
  | fuel+1, g, l =>
      match findCodeRef l with
      | none => (g, l)
      | some (before, inner, after) =>
          let nn := canonicalCodeName inner
          let found := alookup g nn
          let g1 :=
            match found with
            | some info =>
                if 0 ≤ callingBlockId then
                  aset g nn { info with
                    referencedFrom := insertRefFrom info.referencedFrom callingBlockId }
                else g
            | none => g
          let blocknum : Int :=
            match found with
            | some info => (info.firstBlockNum : Int)
            | none => -1
          let repl := goExpand
            (fun s =>
              if s = str "blockid" then
                (if blocknum < 0 then str "??" else intRepr blocknum)
              else if s = str "name" then inner
              else s)
            replacement
          let (g2, rest) := weaveRefsSub replacement callingBlockId fuel g1 after
          (g2, before ++ repl ++ rest)

/-- `weaveCodeRefs`. -/
def weaveCodeRefs (cfg : WConfig) (line : Str) (state : PState)
    (callingBlockId : Int) (g : Graph) : Graph × Str :=
  if state = PState.inCode then
    let line1 := escapeCodeEscapes cfg.codeEscape cfg.escapeSub line
    let line2 :=
      replaceAll cfg.codeEscape (cfg.codeEscape ++ cfg.escapeSub ++ cfg.codeEscape)
        line1
    weaveRefsSub (cfg.codeEscape ++ cfg.codeRef ++ cfg.codeEscape)
      callingBlockId (line2.length + 1) g line2
  else
    weaveRefsSub cfg.codeRef callingBlockId (line.length + 1) g line

/-! Inline code (`[[...]]`, `inlineCodeRegex`, non-greedy). -/

def splitAtCloseSq : Str → Option (Str × Str)
  | ']' :: ']' :: rest => some ([], rest)
  | c :: rest => (splitAtCloseSq rest).map fun p => (c :: p.1, p.2)
  | [] => none

def findInline : Str → Option (Str × Str × Str)
  | '[' :: '[' :: rest =>
      (match rest with
       | [] => none
       | c :: rest' =>
           match splitAtCloseSq rest' with
           | some (inner, after) => some (([] : Str), c :: inner, after)
           | none => none)
  | c :: rest => (findInline rest).map fun p => (c :: p.1, p.2.1, p.2.2)
  | [] => none

/-- `weaveInlineCode`: replace every `[[x]]` by the `InlineCode`
template with `$1` standing for `x` (the templates in use reference the
group only as a literal `$1`). -/
def weaveInlineAux (tpl : Str) : Nat → Str → Str
  | 0, l => l
  | fuel+1, l =>
      match findInline l with
      | none => l
      | some (before, inner, after) =>
          before ++ replaceAll (str "$1") inner tpl ++
            weaveInlineAux tpl fuel after

def weaveInlineCode (tpl l : Str) : Str := weaveInlineAux tpl (l.length + 1) l

/-- `removeTextStart`: strip the leading `\s*@:+` marker. -/
def removeTextStart (l : Str) : Str :=
  let ws := l.takeWhile goSpace
  match l.drop ws.length with
  | '@' :: r2 =>
      let colons := r2.takeWhile (· = ':')
      if colons = [] then l else r2.drop colons.length
  | _ => l

/-- `strings.Fields`. -/
def fieldsAux : Str → Str → List Str
  | acc, [] => if acc = [] then [] else [acc.reverse]
  | acc, c :: rest =>
      if uSpace c then
        (if acc = [] then fieldsAux [] rest else acc.reverse :: fieldsAux [] rest)
      else fieldsAux (c :: acc) rest

def splitFields (l : Str) : List Str := fieldsAux [] l

/-- `glitterRegex` applied to the raw (untrimmed) line, as in
`lineHasGlitterProp`. -/
def rawGlitterArg (l : Str) : Option Str :=
  let t := l.drop (l.takeWhile goSpace).length
  if t.take 8 = str "@glitter" then
    match t.drop 8 with
    | [] => some []
    | c :: rest => if goSpace c then some (c :: rest) else none
  else none

def lineHasGlitterProp (line prop : Str) : Bool :=
  match rawGlitterArg line with
  | none => false
  | some arg => (splitFields arg).any fun p => p == prop

/-- `lineCommand` with `Options.Command = "weave"`. -/
def lineCommandW (cfg : WConfig) (pos : FilePos) : Str :=
  goExpand
    (fun name =>
      if name = str "lineno" then (Nat.repr pos.lineno).data
      else if name = str "filename" then pos.filename
      else name)
    cfg.weaveLineRef

/-- `fmt.Sprintf` with a single `%s` verb, as used for `StartCode`. -/
def sprintf1 : Str → Str → Str
  | [], _ => []
  | '%' :: 's' :: rest, arg => arg ++ rest
  | c :: rest, arg => c :: sprintf1 rest arg

/-- `writeCodeBlockOptions`: bump the definition count and emit the
`CodeSet` template. -/
def writeCodeBlockOptions (cfg : WConfig) (g : Graph) (blockName : Str)
    (important : Bool) : Except GoError (Graph × Str) :=
  let bn := canonicalCodeName blockName
  match alookup g bn with
  | none => Except.error (GoError.internallyMissingBlock bn)
  | some info =>
      let g' := aset g bn { info with count := info.count + 1 }
      let setcmd := goExpand
        (fun s =>
          if s = str "blocktable" then
            (if important then str "true" else str "false")
          else if s = str "blockid" then (Nat.repr info.firstBlockNum).data
          else if s = str "blockseries" then
            (Nat.repr (info.count + 1 - 1)).data
          else s)
        cfg.codeSet
      Except.ok (g', setcmd)

structure WeaveState where
  isHiding : Bool
  important : Bool
  wstate : PState
  currentFilename : Str
  block : Block
  graph : Graph
  blockId : Nat
  currentBlockId : Int
  out : Str
deriving DecidableEq, Repr

/-- `weaveEndBlock`: the text closing the current block, and the new
value of the `important` flag; `none` is the finalisation fault. -/
def weaveEndBlockText (cfg : WConfig) (st : WeaveState) :
    Option (Str × Bool) :=
  match st.wstate with
  | PState.inCode =>
      match finalizeContent st.block with
      | none => none
      | some fb =>
          some ((fb.lines.map fun sl => sl.line ++ ['\n']).join ++ cfg.endCode,
            false)
  | PState.inText => some (cfg.endText, st.important)
  | PState.start => some ([], st.important)

/-- `processWeaveLine`. -/
def processWeaveLine (cfg : WConfig) (g : Graph) (blockId : Nat)
    (state : PState) (currentBlockId : Int) (line : Str) (pos : FilePos) :
    Graph × Nat × Str :=
  let (g1, bid1) := registerBlockRefs g blockId line pos
  let (g2, line1) := weaveCodeRefs cfg line state currentBlockId g1
  (g2, bid1, replaceNoOpChars (weaveInlineCode cfg.inlineCode line1))

/-- One line of `Weave`'s loop. -/
def weaveStep (cfg : WConfig) (st : WeaveState) (l : ScanLine) :
    Except GoError WeaveState :=
  let st :=
    if l.pos.filename ≠ st.currentFilename then
      { st with
        currentFilename := l.pos.filename,
        out := st.out ++ lineCommandW cfg l.pos }
    else st
  match computeLineType l.line with
  | (LineType.glitterLine, _) =>
      let h1 := if lineHasGlitterProp l.line (str "hide") then true else st.isHiding
      let h2 := if lineHasGlitterProp l.line (str "show") then false else h1
      Except.ok { st with isHiding := h2 }
  | (t, arg) =>
      if st.isHiding then Except.ok st
      else
        match t with
        | LineType.textStart =>
            let st :=
              if st.wstate = PState.start then
                { st with out := st.out ++ cfg.startBook ++ ['\n'] }
              else st
            match weaveEndBlockText cfg st with
            | none => Except.error GoError.panicked
            | some (closing, imp1) =>
                let st := { st with
                  out := st.out ++ closing
                  important := imp1
                  currentBlockId := -1
                  wstate := PState.inText }
                let line := removeTextStart l.line
                let (g2, bid2, processed) :=
                  processWeaveLine cfg st.graph st.blockId st.wstate
                    st.currentBlockId line l.pos
                let st := { st with
                  graph := g2
                  blockId := bid2
                  out := st.out ++ lineCommandW cfg l.pos ++ cfg.startText ++
                    processed ++ ['\n'] }
                Except.ok
                  (if 1 < arg.length then { st with important := true } else st)
        | LineType.codeStart =>
            let st :=
              if st.wstate = PState.start then
                { st with out := st.out ++ cfg.startBook ++ ['\n'] }
              else st
            match weaveEndBlockText cfg st with
            | none => Except.error GoError.panicked
            | some (closing, imp1) =>
                let st := { st with
                  out := st.out ++ closing
                  important := imp1
                  wstate := PState.inCode }
                let (g1, bid1) :=
                  registerBlockRefs st.graph st.blockId l.line l.pos
                let cbid :=
                  match alookup g1 (canonicalCodeName arg) with
                  | some b => (b.firstBlockNum : Int)
                  | none => st.currentBlockId
                match writeCodeBlockOptions cfg g1 arg st.important with
                | Except.error e => Except.error e
                | Except.ok (g2, setcmd) =>
                    Except.ok { st with
                      graph := g2
                      blockId := bid1
                      currentBlockId := cbid
                      out := st.out ++ setcmd ++ '\n' ::
                        (lineCommandW cfg l.pos ++
                          sprintf1 cfg.startCode arg ++ ['\n'])
                      block := ⟨[]⟩ }
        | LineType.otherLine =>
            if st.wstate = PState.start then
              Except.ok { st with
                out := st.out ++ replaceNoOpChars l.line ++ ['\n'] }
            else
              let (g2, bid2, processed) :=
                processWeaveLine cfg st.graph st.blockId st.wstate
                  st.currentBlockId l.line l.pos
              let st := { st with graph := g2, blockId := bid2 }
              if st.wstate = PState.inCode then
                Except.ok { st with
                  block := ⟨st.block.lines ++ [⟨l.pos, processed⟩]⟩ }
              else
                Except.ok { st with out := st.out ++ processed ++ ['\n'] }
        | LineType.glitterLine => Except.ok st

/-- `Weave` over a scanned stream: initial `Start` template, the loop,
the closing templates.  (The `StartBook` default is the empty string:
`NewGlitterOptions` stores it under the misspelt key `StartBock`.) -/
def weaveRun (cfg : WConfig) (stream : List ScanLine) :
    Except GoError WeaveState :=
  let st0 : WeaveState :=
    ⟨false, false, PState.start, [], ⟨[]⟩, [], 0, -1, cfg.startTpl ++ ['\n']⟩
  match stream.foldlM (weaveStep cfg) st0 with
  | Except.error e => Except.error e
  | Except.ok st =>
      match weaveEndBlockText cfg st with
      | none => Except.error GoError.panicked
      | some (closing, imp1) =>
          Except.ok { st with
            important := imp1
            out := st.out ++ closing ++ '\n' :: (cfg.endBook ++ ['\n']) }

/-- `printUndefinedBlocks`: the names reported as undefined at end of
input (definition count zero). -/
def undefinedBlocks (g : Graph) : List Str :=
  (g.filter fun p => p.2.count = 0).map Prod.fst

/-! ### Claim C2: undefined references in tangle and in weave -/

/-- A small weave configuration whose `CodeRef` template actually uses
`$blockid` (the shipped default `\glitterCodeRef` with a literal `$1`
never interpolates the block id at all). -/
def cfgC2 : WConfig :=
  ⟨str "S", str "SB", str "EB", str "ST", str "ET", str "[%s]", str "EC",
    str "@", str "[$blockid]", str "HASH", str "$1", str "", str ""⟩

/-- Projections of a weave result (empty defaults on the error side). -/
def runOut (r : Except GoError WeaveState) : Str :=
  match r with
  | Except.ok st => st.out
  | Except.error _ => []

def runGraph (r : Except GoError WeaveState) : Graph :=
  match r with
  | Except.ok st => st.graph
  | Except.error _ => []

def isOkE {ε α : Type} (r : Except ε α) : Bool :=
  match r with
  | Except.ok _ => true
  | Except.error _ => false

/-- C2 (counterexample): on an input whose only reference names a block
with no definition, weave does *not* emit `??` as the block id —
`registerBlockRefs` runs before `weaveCodeRefs` and assigns the name a
fresh number, so the emitted block id is that number (`1` here) and the
woven output contains no `?` at all. -/
theorem C2_counterexample :
    isOkE (weaveRun cfgC2 [⟨⟨str "f.gw", 1⟩, str "@: see <<x>>", 1⟩]) = true ∧
    runOut (weaveRun cfgC2 [⟨⟨str "f.gw", 1⟩, str "@: see <<x>>", 1⟩]) =
      str "S\nSB\nST see [1]\nET\nEB\n" ∧
    '?' ∉ runOut (weaveRun cfgC2 [⟨⟨str "f.gw", 1⟩, str "@: see <<x>>", 1⟩]) := by
  decide

/-- C2 (amended): a reference to a canonical name with no definition is
fatal for tangle — `expandLine` returns the undefined-reference error
carrying the expansion position — while weave (shown on a representative
input) completes, assigns the name a fresh block number at its first
mention, substitutes that number (not `??`) into the `CodeRef` template,
and reports the name as undefined at end of input. -/
theorem C2_undefined_reference :
    (∀ (blocks : BlockStore) (fuel : Nat) (line : Str) (loc : FilePos)
        (before innerRaw after : Str),
      findCodeRef line = some (before, innerRaw, after) →
      isTopLevelName (canonicalCodeName (trimSpace innerRaw)) = false →
      lookupStore blocks (canonicalCodeName (trimSpace innerRaw)) = none →
      expandLineF blocks (fuel + 1) line loc =
        some (Except.error (GoError.undefinedReference loc
          (canonicalCodeName (trimSpace innerRaw))))) ∧
    (isOkE (weaveRun cfgC2 [⟨⟨str "f.gw", 1⟩, str "@: see <<x>>", 1⟩]) = true ∧
     runGraph (weaveRun cfgC2 [⟨⟨str "f.gw", 1⟩, str "@: see <<x>>", 1⟩]) =
       [(str "x", ⟨0, 1, ⟨str "f.gw", 1⟩, []⟩)] ∧
     '?' ∉ runOut (weaveRun cfgC2 [⟨⟨str "f.gw", 1⟩, str "@: see <<x>>", 1⟩]) ∧
     undefinedBlocks
         (runGraph (weaveRun cfgC2 [⟨⟨str "f.gw", 1⟩, str "@: see <<x>>", 1⟩])) =
       [str "x"]) := by
  constructor
  · intro blocks fuel line loc before innerRaw after hfind htop hlook
    exact tangle_undefined_ref blocks fuel line loc before innerRaw after
      hfind htop hlook
  · decide

/-- Witness for `C2_undefined_reference`: the tangle half applied to a
store without `"missing"` and the line `"hello <<missing>> z"`. -/
theorem C2_witness :
    expandLineF [(str "b", ⟨[⟨⟨str "f.gw", 5⟩, str "foo"⟩]⟩)] 4
        (str "hello <<missing>> z") ⟨str "f.gw", 10⟩ =
      some (Except.error (GoError.undefinedReference ⟨str "f.gw", 10⟩
        (canonicalCodeName (trimSpace (str "missing"))))) :=
  C2_undefined_reference.1
    [(str "b", ⟨[⟨⟨str "f.gw", 5⟩, str "foo"⟩]⟩)] 3
    (str "hello <<missing>> z") ⟨str "f.gw", 10⟩
    (str "hello ") (str "missing") (str " z")
    (by decide) (by decide) (by decide)

/-! ### Claim C8: the fragment-graph invariants of a weave run -/

/-- The registration events of a weave run, read off the stream in the
claim's terms: the canonical names mentioned on each processed line (in
match order, with the line's position), and the canonical names of the
processed (non-hidden) `CodeStart` lines.  Hidden lines and `Other`
lines in the preamble state register nothing. -/
def specScan (hid : Bool) (state : PState) :
    List ScanLine → List (Str × FilePos) × List Str
  | [] => ([], [])
  | l :: rest =>
      match computeLineType l.line with
      | (LineType.glitterLine, _) =>
          let h1 :=
            if lineHasGlitterProp l.line (str "hide") then true else hid
          let h2 := if lineHasGlitterProp l.line (str "show") then false else h1
          specScan h2 state rest
      | (t, arg) =>
          if hid then specScan hid state rest
          else
            match t with
            | LineType.textStart =>
                let ms := lineMentions (removeTextStart l.line) l.pos
                let mc := specScan hid PState.inText rest
                (ms ++ mc.1, mc.2)
            | LineType.codeStart =>
                let ms := lineMentions l.line l.pos
                let mc := specScan hid PState.inCode rest
                (ms ++ mc.1, canonicalCodeName arg :: mc.2)
            | LineType.otherLine =>
                if state = PState.start then specScan hid state rest
                else
                  let ms := lineMentions l.line l.pos
                  let mc := specScan hid state rest
                  (ms ++ mc.1, mc.2)
            | LineType.glitterLine => specScan hid state rest

/-- First occurrence of each name in a mention list, given an initial
set of already-seen names. -/
def firstOccurAux (seen : List Str) : List (Str × FilePos) → List (Str × FilePos)
  | [] => []
  | (n, p) :: rest =>
      if n ∈ seen then firstOccurAux seen rest
      else (n, p) :: firstOccurAux (n :: seen) rest

/-- The graph entries created for a run of fresh first mentions,
numbered consecutively from `bid + 1`. -/
def newEntries (bid : Nat) : List (Str × FilePos) → Graph
  | [] => []
  | (n, p) :: rest => (n, ⟨0, bid + 1, p, []⟩) :: newEntries (bid + 1) rest

/-- A name's definition count in the graph (0 when absent). -/
def countOf (g : Graph) (n : Str) : Nat :=
  ((alookup g n).map WeaveBlockInfo.count).getD 0

/-- The registration skeleton of a graph: everything except the mutable
`count` and `referencedFrom` fields. -/
def skeletonG (g : Graph) : List (Str × Nat × FilePos) :=
  g.map fun p => (p.1, p.2.firstBlockNum, p.2.firstMention)

theorem alookup_cons {β : Type} (k : Str) (v : β) (g : List (Str × β))
    (n : Str) :
    alookup ((k, v) :: g) n = if k = n then some v else alookup g n := rfl

theorem alookup_eq_none_iff {β : Type} (g : List (Str × β)) (k : Str) :
    alookup g k = none ↔ k ∉ g.map Prod.fst := by
  induction g with
  | nil => simp [alookup]
  | cons p rest ih =>
      rcases p with ⟨k', v⟩
      by_cases hk : k' = k
      · rw [alookup_cons, if_pos hk]
        simp only [List.map_cons, List.mem_cons]
        constructor
        · intro h; exact absurd h (by simp)
        · intro h; exact absurd (Or.inl hk.symm) h
      · simp only [alookup, hk, if_false, List.map_cons, List.mem_cons]
        rw [ih]
        constructor
        · intro h hmem
          rcases hmem with he | hm
          · exact hk he.symm
          · exact h hm
        · intro h hm
          exact h (Or.inr hm)

theorem firstOccurAux_congr : ∀ {s1 s2 : List Str}
    (_ : ∀ x, x ∈ s1 ↔ x ∈ s2) (ms : List (Str × FilePos)),
    firstOccurAux s1 ms = firstOccurAux s2 ms := by
  intro s1 s2 hs ms
  induction ms generalizing s1 s2 with
  | nil => rfl
  | cons m rest ih =>
      rcases m with ⟨n, p⟩
      by_cases hn : n ∈ s1
      · rw [firstOccurAux, firstOccurAux, if_pos hn, if_pos ((hs n).mp hn)]
        exact ih hs
      · rw [firstOccurAux, firstOccurAux, if_neg hn,
          if_neg (fun hc => hn ((hs n).mpr hc))]
        refine congrArg _ (ih ?_)
        intro x
        simp only [List.mem_cons]
        constructor
        · intro h; rcases h with he | hm
          · exact Or.inl he
          · exact Or.inr ((hs x).mp hm)
        · intro h; rcases h with he | hm
          · exact Or.inl he
          · exact Or.inr ((hs x).mpr hm)

theorem mentionFold_eq : ∀ (ms : List (Str × FilePos)) (g : Graph) (bid : Nat),
    ms.foldl regMention (g, bid) =
      (g ++ newEntries bid (firstOccurAux (g.map Prod.fst) ms),
       bid + (firstOccurAux (g.map Prod.fst) ms).length) := by
  intro ms
  induction ms with
  | nil => intro g bid; simp [firstOccurAux, newEntries]
  | cons m rest ih =>
      intro g bid
      rcases m with ⟨n, p⟩
      rw [List.foldl_cons]
      by_cases hn : n ∈ g.map Prod.fst
      · have hlook : alookup g n ≠ none := by
          rw [ne_eq, alookup_eq_none_iff g n]
          exact not_not_intro hn
        have : regMention (g, bid) (n, p) = (g, bid) := by
          unfold regMention
          cases hv : alookup g n with
          | none => exact absurd hv hlook
          | some v => rfl
        rw [this, ih g bid, firstOccurAux, if_pos hn]
      · have hlook : alookup g n = none := (alookup_eq_none_iff g n).mpr hn
        have hreg : regMention (g, bid) (n, p) =
            (g ++ [(n, (⟨0, bid + 1, p, []⟩ : WeaveBlockInfo))], bid + 1) := by
          unfold regMention
          rw [hlook]
        rw [hreg, ih _ _, firstOccurAux, if_neg hn]
        have hkeys : ∀ x,
            x ∈ (g ++ [(n, (⟨0, bid + 1, p, []⟩ : WeaveBlockInfo))]).map
              Prod.fst ↔ x ∈ n :: g.map Prod.fst := by
          intro x
          simp only [List.map_append, List.mem_append, List.map_cons,
            List.map_nil, List.mem_cons]
          constructor
          · intro h
            rcases h with hm | hm
            · exact Or.inr hm
            · simp at hm
              exact Or.inl hm
          · intro h
            rcases h with he | hm
            · right; simp [he]
            · exact Or.inl hm
        rw [firstOccurAux_congr hkeys rest]
        rw [newEntries, List.append_assoc]
        simp only [List.singleton_append, List.length_cons]
        rw [Prod.mk.injEq]
        exact ⟨rfl, by omega⟩

theorem newEntries_nums : ∀ (fo : List (Str × FilePos)) (bid : Nat),
    (newEntries bid fo).map (fun p => p.2.firstBlockNum) =
      List.range' (bid + 1) fo.length := by
  intro fo
  induction fo with
  | nil => intro bid; rfl
  | cons m rest ih =>
      intro bid
      rcases m with ⟨n, p⟩
      rw [newEntries, List.map_cons, ih (bid + 1), List.length_cons,
        List.range'_succ]

theorem newEntries_keys : ∀ (fo : List (Str × FilePos)) (bid : Nat),
    (newEntries bid fo).map Prod.fst = fo.map Prod.fst := by
  intro fo
  induction fo with
  | nil => intro bid; rfl
  | cons m rest ih =>
      intro bid
      rcases m with ⟨n, p⟩
      rw [newEntries, List.map_cons, List.map_cons, ih (bid + 1)]

theorem newEntries_mentions : ∀ (fo : List (Str × FilePos)) (bid : Nat),
    (newEntries bid fo).map (fun p => p.2.firstMention) = fo.map Prod.snd := by
  intro fo
  induction fo with
  | nil => intro bid; rfl
  | cons m rest ih =>
      intro bid
      rcases m with ⟨n, p⟩
      rw [newEntries, List.map_cons, List.map_cons, ih (bid + 1)]

theorem alookup_append {β : Type} : ∀ (g h : List (Str × β)) (k : Str),
    alookup (g ++ h) k =
      match alookup g k with
      | some v => some v
      | none => alookup h k := by
  intro g
  induction g with
  | nil => intro h k; rfl
  | cons p rest ih =>
      intro h k
      rcases p with ⟨k', v⟩
      by_cases hk : k' = k
      · rw [List.cons_append, alookup_cons, alookup_cons, if_pos hk, if_pos hk]
      · rw [List.cons_append, alookup_cons, alookup_cons, if_neg hk,
          if_neg hk, ih]

theorem alookup_aset_found {β : Type} :
    ∀ (g : List (Str × β)) (k : Str) (v : β) (n : Str) (info : β),
    alookup g k = some info →
    alookup (aset g k v) n = if k = n then some v else alookup g n := by
  intro g
  induction g with
  | nil => intro k v n info h; exact absurd h (by simp [alookup])
  | cons p rest ih =>
      intro k v n info h
      rcases p with ⟨k', v'⟩
      by_cases hk : k' = k
      · rw [aset, if_pos hk, alookup_cons, alookup_cons]
        subst hk
        by_cases hn : k' = n
        · simp [hn]
        · simp [hn]
      · rw [alookup_cons, if_neg hk] at h
        rw [aset, if_neg hk, alookup_cons]
        by_cases hn : k' = n
        · have hkn : ¬k = n := fun hc => hk (hn.trans hc.symm)
          rw [if_pos hn, if_neg hkn, alookup_cons, if_pos hn]
        · rw [if_neg hn, ih k v n info h, alookup_cons, if_neg hn]

theorem newEntries_counts : ∀ (fo : List (Str × FilePos)) (bid : Nat) (n : Str),
    countOf (newEntries bid fo) n = 0 := by
  intro fo
  induction fo with
  | nil => intro bid n; rfl
  | cons m rest ih =>
      intro bid n
      rcases m with ⟨nm, p⟩
      by_cases hn : nm = n
      · simp [countOf, newEntries, alookup_cons, hn]
      · rw [countOf, newEntries, alookup_cons, if_neg hn]
        exact ih (bid + 1) n

theorem countOf_append_newEntries (g : Graph) (fo : List (Str × FilePos))
    (bid : Nat) (n : Str) : countOf (g ++ newEntries bid fo) n = countOf g n := by
  rw [countOf, alookup_append]
  cases hv : alookup g n with
  | some v => rw [countOf, hv]
  | none =>
      have h0 := newEntries_counts fo bid n
      rw [countOf] at h0 ⊢
      rw [hv, h0]
      rfl

theorem skeletonG_aset : ∀ (g : Graph) (k : Str) (v info : WeaveBlockInfo),
    alookup g k = some info → v.firstBlockNum = info.firstBlockNum →
    v.firstMention = info.firstMention → skeletonG (aset g k v) = skeletonG g := by
  intro g
  induction g with
  | nil => intro k v info h; exact absurd h (by simp [alookup])
  | cons p rest ih =>
      intro k v info h hb hm
      rcases p with ⟨k', v'⟩
      by_cases hk : k' = k
      · rw [alookup_cons, if_pos hk] at h
        rw [aset, if_pos hk, skeletonG, skeletonG, List.map_cons, List.map_cons]
        have hv' : v' = info := Option.some.inj h
        rw [hb, hm, hv']
      · rw [alookup_cons, if_neg hk] at h
        rw [aset, if_neg hk, skeletonG, skeletonG, List.map_cons, List.map_cons]
        have := ih k v info h hb hm
        rw [skeletonG, skeletonG] at this
        rw [this]

theorem countOf_aset (g : Graph) (k : Str) (v info : WeaveBlockInfo)
    (h : alookup g k = some info) (n : Str) :
    countOf (aset g k v) n = if k = n then v.count else countOf g n := by
  rw [countOf, alookup_aset_found g k v n info h]
  by_cases hn : k = n
  · rw [if_pos hn, if_pos hn]
    rfl
  · rw [if_neg hn, if_neg hn, countOf]

theorem countOf_some (g : Graph) (k : Str) (info : WeaveBlockInfo)
    (h : alookup g k = some info) : countOf g k = info.count := by
  rw [countOf, h]
  rfl

theorem weaveRefsSub_preserves (rep : Str) (cb : Int) :
    ∀ (fuel : Nat) (g : Graph) (l : Str),
    skeletonG (weaveRefsSub rep cb fuel g l).1 = skeletonG g ∧
    ∀ n, countOf (weaveRefsSub rep cb fuel g l).1 n = countOf g n := by
  intro fuel
  induction fuel with
  | zero => intro g l; exact ⟨rfl, fun n => rfl⟩
  | succ fuel ih =>
      intro g l
      rw [weaveRefsSub]
      cases hf : findCodeRef l with
      | none => exact ⟨rfl, fun n => rfl⟩
      | some t =>
          rcases t with ⟨before, inner, after⟩
          simp only
          cases hfound : alookup g (canonicalCodeName inner) with
          | none =>
              simp only
              cases hrec : weaveRefsSub rep cb fuel g after with
              | mk g2 rest =>
                  have := ih g after
                  rw [hrec] at this
                  exact ⟨this.1, this.2⟩
          | some info =>
              simp only
              by_cases hcb : 0 ≤ cb
              · rw [if_pos hcb]
                set g1 := aset g (canonicalCodeName inner)
                  { info with referencedFrom :=
                      insertRefFrom info.referencedFrom cb } with hg1
                have hskel : skeletonG g1 = skeletonG g :=
                  skeletonG_aset g (canonicalCodeName inner) _ info hfound rfl rfl
                have hcnt : ∀ n, countOf g1 n = countOf g n := by
                  intro n
                  rw [hg1, countOf_aset g (canonicalCodeName inner) _ info hfound n]
                  by_cases hn : canonicalCodeName inner = n
                  · rw [if_pos hn]
                    subst hn
                    rw [countOf_some g (canonicalCodeName inner) info hfound]
                  · rw [if_neg hn]
                cases hrec : weaveRefsSub rep cb fuel g1 after with
                | mk g2 rest =>
                    have := ih g1 after
                    rw [hrec] at this
                    exact ⟨this.1.trans hskel,
                      fun n => (this.2 n).trans (hcnt n)⟩
              · rw [if_neg hcb]
                cases hrec : weaveRefsSub rep cb fuel g after with
                | mk g2 rest =>
                    have := ih g after
                    rw [hrec] at this
                    exact ⟨this.1, this.2⟩

theorem weaveCodeRefs_preserves (cfg : WConfig) (line : Str) (state : PState)
    (cb : Int) (g : Graph) :
    skeletonG (weaveCodeRefs cfg line state cb g).1 = skeletonG g ∧
    ∀ n, countOf (weaveCodeRefs cfg line state cb g).1 n = countOf g n := by
  rw [weaveCodeRefs]
  by_cases hs : state = PState.inCode
  · rw [if_pos hs]
    exact weaveRefsSub_preserves _ _ _ _ _
  · rw [if_neg hs]
    exact weaveRefsSub_preserves _ _ _ _ _

theorem registerBlockRefs_eq (g : Graph) (bid : Nat) (line : Str)
    (pos : FilePos) :
    registerBlockRefs g bid line pos =
      (g ++ newEntries bid
        (firstOccurAux (g.map Prod.fst) (lineMentions line pos)),
       bid + (firstOccurAux (g.map Prod.fst) (lineMentions line pos)).length) :=
  mentionFold_eq (lineMentions line pos) g bid

theorem processWeaveLine_effect (cfg : WConfig) (g : Graph) (bid : Nat)
    (state : PState) (cbid : Int) (line : Str) (pos : FilePos) :
    skeletonG (processWeaveLine cfg g bid state cbid line pos).1 =
      skeletonG (g ++ newEntries bid
        (firstOccurAux (g.map Prod.fst) (lineMentions line pos))) ∧
    (processWeaveLine cfg g bid state cbid line pos).2.1 =
      bid + (firstOccurAux (g.map Prod.fst) (lineMentions line pos)).length ∧
    ∀ n, countOf (processWeaveLine cfg g bid state cbid line pos).1 n =
      countOf g n := by
  have hpw : processWeaveLine cfg g bid state cbid line pos =
      ((weaveCodeRefs cfg line state cbid (g ++ newEntries bid
          (firstOccurAux (g.map Prod.fst) (lineMentions line pos)))).1,
       bid + (firstOccurAux (g.map Prod.fst) (lineMentions line pos)).length,
       replaceNoOpChars (weaveInlineCode cfg.inlineCode
         (weaveCodeRefs cfg line state cbid (g ++ newEntries bid
           (firstOccurAux (g.map Prod.fst) (lineMentions line pos)))).2)) := by
    rw [processWeaveLine, registerBlockRefs_eq]
  rw [hpw]
  have hpres := weaveCodeRefs_preserves cfg line state cbid
    (g ++ newEntries bid
      (firstOccurAux (g.map Prod.fst) (lineMentions line pos)))
  exact ⟨hpres.1, rfl,
    fun n => (hpres.2 n).trans (countOf_append_newEntries g _ bid n)⟩

theorem writeCodeBlockOptions_effect (cfg : WConfig) (g : Graph)
    (blockName : Str) (imp : Bool) (g' : Graph) (cmd : Str)
    (h : writeCodeBlockOptions cfg g blockName imp = Except.ok (g', cmd)) :
    skeletonG g' = skeletonG g ∧
    ∀ n, countOf g' n = countOf g n +
      (if canonicalCodeName blockName = n then 1 else 0) := by
  rw [writeCodeBlockOptions] at h
  cases hfound : alookup g (canonicalCodeName blockName) with
  | none => rw [hfound] at h; exact absurd h (by simp)
  | some info =>
      rw [hfound] at h
      simp only [Except.ok.injEq, Prod.mk.injEq] at h
      rcases h with ⟨hg, _⟩
      subst hg
      refine ⟨skeletonG_aset g _ _ info hfound rfl rfl, fun n => ?_⟩
      rw [countOf_aset g _ _ info hfound n]
      by_cases hn : canonicalCodeName blockName = n
      · rw [if_pos hn, if_pos hn]
        subst hn
        rw [countOf_some g _ info hfound]
      · rw [if_neg hn, if_neg hn, Nat.add_zero]

theorem skel_keys (g : Graph) :
    (skeletonG g).map Prod.fst = g.map Prod.fst := by
  induction g with
  | nil => rfl
  | cons p rest ih => rw [skeletonG, List.map_cons, List.map_cons, List.map_cons]
                      rw [skeletonG] at ih
                      rw [ih]

theorem skel_nums (g : Graph) :
    (skeletonG g).map (fun q => q.2.1) =
      g.map (fun p => p.2.firstBlockNum) := by
  induction g with
  | nil => rfl
  | cons p rest ih => rw [skeletonG, List.map_cons, List.map_cons, List.map_cons]
                      rw [skeletonG] at ih
                      rw [ih]

theorem skel_mentions (g : Graph) :
    (skeletonG g).map (fun q => q.2.2) =
      g.map (fun p => p.2.firstMention) := by
  induction g with
  | nil => rfl
  | cons p rest ih => rw [skeletonG, List.map_cons, List.map_cons, List.map_cons]
                      rw [skeletonG] at ih
                      rw [ih]

theorem skeletonG_append (g h : Graph) :
    skeletonG (g ++ h) = skeletonG g ++ skeletonG h := by
  rw [skeletonG, skeletonG, skeletonG, List.map_append]

theorem newEntries_append : ∀ (a b : List (Str × FilePos)) (bid : Nat),
    newEntries bid (a ++ b) =
      newEntries bid a ++ newEntries (bid + a.length) b := by
  intro a
  induction a with
  | nil => intro b bid; rfl
  | cons m rest ih =>
      intro b bid
      rcases m with ⟨n, p⟩
      rw [List.cons_append, newEntries, newEntries, ih b (bid + 1),
        List.cons_append, List.length_cons]
      have : bid + 1 + rest.length = bid + (rest.length + 1) := by omega
      rw [this]

theorem firstOccurAux_append :
    ∀ (ms1 ms2 : List (Str × FilePos)) (seen : List Str),
    firstOccurAux seen (ms1 ++ ms2) =
      firstOccurAux seen ms1 ++
        firstOccurAux ((firstOccurAux seen ms1).map Prod.fst ++ seen) ms2 := by
  intro ms1
  induction ms1 with
  | nil =>
      intro ms2 seen
      rw [List.nil_append, firstOccurAux]
      rfl
  | cons m rest ih =>
      intro ms2 seen
      rcases m with ⟨n, p⟩
      by_cases hn : n ∈ seen
      · rw [List.cons_append, firstOccurAux, if_pos hn, firstOccurAux,
          if_pos hn, ih ms2 seen]
      · rw [List.cons_append, firstOccurAux, if_neg hn, firstOccurAux,
          if_neg hn, ih ms2 (n :: seen), List.cons_append]
        refine congrArg _ (congrArg _ ?_)
        refine firstOccurAux_congr (fun x => ?_) ms2
        simp only [List.map_cons, List.mem_append, List.mem_cons]
        tauto

/-- The hiding flag after one line. -/
def specHid1 (hid : Bool) (line : Str) : Bool :=
  match computeLineType line with
  | (LineType.glitterLine, _) =>
      let h1 := if lineHasGlitterProp line (str "hide") then true else hid
      if lineHasGlitterProp line (str "show") then false else h1
  | _ => hid

/-- The parser state after one line of the weave loop. -/
def specState1 (hid : Bool) (state : PState) (line : Str) : PState :=
  match computeLineType line with
  | (LineType.glitterLine, _) => state
  | (t, _) =>
      if hid then state
      else
        match t with
        | LineType.textStart => PState.inText
        | LineType.codeStart => PState.inCode
        | _ => state

/-- The mentions registered by one line of the weave loop. -/
def specMs1 (hid : Bool) (state : PState) (l : ScanLine) :
    List (Str × FilePos) :=
  match computeLineType l.line with
  | (LineType.glitterLine, _) => []
  | (t, _) =>
      if hid then []
      else
        match t with
        | LineType.textStart => lineMentions (removeTextStart l.line) l.pos
        | LineType.codeStart => lineMentions l.line l.pos
        | LineType.otherLine =>
            if state = PState.start then [] else lineMentions l.line l.pos
        | LineType.glitterLine => []

/-- The canonical names whose definition count one line bumps. -/
def specCs1 (hid : Bool) (l : ScanLine) : List Str :=
  match computeLineType l.line with
  | (LineType.glitterLine, _) => []
  | (t, arg) =>
      if hid then []
      else
        match t with
        | LineType.codeStart => [canonicalCodeName arg]
        | _ => []

theorem specScan_cons (hid : Bool) (state : PState) (l : ScanLine)
    (rest : List ScanLine) :
    specScan hid state (l :: rest) =
      (specMs1 hid state l ++
        (specScan (specHid1 hid l.line) (specState1 hid state l.line) rest).1,
       specCs1 hid l ++
        (specScan (specHid1 hid l.line) (specState1 hid state l.line) rest).2) := by
  rw [specScan]
  rcases hty : computeLineType l.line with ⟨t, arg⟩
  cases hid <;> cases t <;>
    simp [specMs1, specCs1, specHid1, specState1, hty] <;>
    by_cases hws : state = PState.start <;>
    simp [hws]

theorem weaveStep_filename_reduce (cfg : WConfig) (st : WeaveState)
    (l : ScanLine) :
    weaveStep cfg st l = weaveStep cfg
      (if l.pos.filename ≠ st.currentFilename then
        { st with
          currentFilename := l.pos.filename
          out := st.out ++ lineCommandW cfg l.pos }
       else st) l := by
  by_cases hf : l.pos.filename ≠ st.currentFilename
  · rw [if_pos hf, weaveStep, weaveStep]
    rw [if_pos hf]
    have hnn : ¬ (l.pos.filename ≠
        ({ st with
           currentFilename := l.pos.filename
           out := st.out ++ lineCommandW cfg l.pos } :
          WeaveState).currentFilename) := fun hc => hc rfl
    rw [if_neg hnn]
  · rw [if_neg hf]

theorem filterEq_singleton_length (x n : Str) :
    (List.filter (fun c => decide (c = n)) [x]).length =
      if x = n then 1 else 0 := by
  by_cases hx : x = n <;> simp [hx]

theorem weaveStep_effect_core (cfg : WConfig) (st : WeaveState) (l : ScanLine)
    (st' : WeaveState) (hcf : st.currentFilename = l.pos.filename)
    (h : weaveStep cfg st l = Except.ok st') :
    st'.isHiding = specHid1 st.isHiding l.line ∧
    st'.wstate = specState1 st.isHiding st.wstate l.line ∧
    skeletonG st'.graph = skeletonG (st.graph ++ newEntries st.blockId
      (firstOccurAux (st.graph.map Prod.fst)
        (specMs1 st.isHiding st.wstate l))) ∧
    st'.blockId = st.blockId +
      (firstOccurAux (st.graph.map Prod.fst)
        (specMs1 st.isHiding st.wstate l)).length ∧
    ∀ n, countOf st'.graph n = countOf st.graph n +
      ((specCs1 st.isHiding l).filter (fun c => c = n)).length := by
  rw [weaveStep] at h
  rw [hcf] at h
  have hne : ¬ (l.pos.filename ≠ l.pos.filename) := fun hc => hc rfl
  rw [if_neg hne] at h
  rcases hty : computeLineType l.line with ⟨t, arg⟩
  rw [hty] at h
  cases t with
  | glitterLine =>
      dsimp only at h
      have hst' := (Except.ok.inj h).symm
      subst hst'
      refine ⟨by simp [specHid1, hty], by simp [specState1, hty], ?_, ?_, ?_⟩
      · simp [specMs1, hty, firstOccurAux, newEntries]
      · simp [specMs1, hty, firstOccurAux, newEntries]
      · intro n
        simp [specCs1, hty]
  | textStart =>
      dsimp only at h
      cases hhid : st.isHiding with
      | true =>
          rw [if_pos hhid] at h
          have hst' := (Except.ok.inj h).symm
          subst hst'
          refine ⟨by simp [specHid1, hty, hhid],
            by simp [specState1, hty, hhid], ?_, ?_, ?_⟩
          · simp [specMs1, hty, hhid, firstOccurAux, newEntries]
          · simp [specMs1, hty, hhid, firstOccurAux, newEntries]
          · intro n
            simp [specCs1, hty, hhid]
      | false =>
          rw [if_neg (fun hc => Bool.false_ne_true (hhid.symm.trans hc))] at h
          set stA := if st.wstate = PState.start then
            { st with out := st.out ++ cfg.startBook ++ ['\n'] } else st
            with hstA
          have hAg : stA.graph = st.graph := by rw [hstA]; split <;> rfl
          have hAb : stA.blockId = st.blockId := by rw [hstA]; split <;> rfl
          have hAh : stA.isHiding = st.isHiding := by
            rw [hstA]; split <;> rfl
          cases hweb : weaveEndBlockText cfg stA with
          | none =>
              rw [hweb] at h
              exact absurd h (by simp)
          | some pr =>
              rw [hweb] at h
              rcases pr with ⟨closing, imp1⟩
              dsimp only at h
              rw [hAg, hAb] at h
              cases hpw : processWeaveLine cfg st.graph st.blockId
                  PState.inText (-1) (removeTextStart l.line) l.pos with
              | mk g2 r2 =>
                  cases r2 with
                  | mk bid2 processed =>
                      rw [hpw] at h
                      dsimp only at h
                      have heff := processWeaveLine_effect cfg st.graph
                        st.blockId PState.inText (-1)
                        (removeTextStart l.line) l.pos
                      rw [hpw] at heff
                      have hst' := (Except.ok.inj h).symm
                      subst hst'
                      by_cases hc : 1 < arg.length <;>
                        [rw [if_pos hc]; rw [if_neg hc]] <;>
                      · refine ⟨by simp [specHid1, hty, hAh, hhid],
                          by simp [specState1, hty, hhid], ?_, ?_, ?_⟩
                        · have := heff.1
                          simpa [specMs1, hty, hhid] using this
                        · have := heff.2.1
                          simpa [specMs1, hty, hhid] using this
                        · intro n
                          have := heff.2.2 n
                          simpa [specCs1, hty, hhid] using this
  | codeStart =>
      dsimp only at h
      cases hhid : st.isHiding with
      | true =>
          rw [if_pos hhid] at h
          have hst' := (Except.ok.inj h).symm
          subst hst'
          refine ⟨by simp [specHid1, hty, hhid],
            by simp [specState1, hty, hhid], ?_, ?_, ?_⟩
          · simp [specMs1, hty, hhid, firstOccurAux, newEntries]
          · simp [specMs1, hty, hhid, firstOccurAux, newEntries]
          · intro n
            simp [specCs1, hty, hhid]
      | false =>
          rw [if_neg (fun hc => Bool.false_ne_true (hhid.symm.trans hc))] at h
          set stA := if st.wstate = PState.start then
            { st with out := st.out ++ cfg.startBook ++ ['\n'] } else st
            with hstA
          have hAg : stA.graph = st.graph := by rw [hstA]; split <;> rfl
          have hAb : stA.blockId = st.blockId := by rw [hstA]; split <;> rfl
          have hAh : stA.isHiding = st.isHiding := by
            rw [hstA]; split <;> rfl
          cases hweb : weaveEndBlockText cfg stA with
          | none =>
              rw [hweb] at h
              exact absurd h (by simp)
          | some pr =>
              rw [hweb] at h
              rcases pr with ⟨closing, imp1⟩
              dsimp only at h
              rw [hAg, hAb] at h
              rw [registerBlockRefs_eq] at h
              dsimp only at h
              cases hw : writeCodeBlockOptions cfg (st.graph ++
                  newEntries st.blockId (firstOccurAux (st.graph.map Prod.fst)
                    (lineMentions l.line l.pos))) arg imp1 with
              | error e =>
                  rw [hw] at h
                  exact absurd h (by simp)
              | ok pr2 =>
                  rw [hw] at h
                  rcases pr2 with ⟨g2, setcmd⟩
                  dsimp only at h
                  have heff := writeCodeBlockOptions_effect cfg _ arg imp1
                    g2 setcmd hw
                  have hst' := (Except.ok.inj h).symm
                  subst hst'
                  refine ⟨by simp [specHid1, hty, hAh, hhid],
                    by simp [specState1, hty, hhid], ?_, ?_, ?_⟩
                  · have := heff.1
                    simpa [specMs1, hty, hhid] using this
                  · simp [specMs1, hty, hhid]
                  · intro n
                    have h1 := heff.2 n
                    rw [countOf_append_newEntries] at h1
                    simpa [specCs1, hty, hhid, filterEq_singleton_length]
                      using h1
  | otherLine =>
      dsimp only at h
      cases hhid : st.isHiding with
      | true =>
          rw [if_pos hhid] at h
          have hst' := (Except.ok.inj h).symm
          subst hst'
          refine ⟨by simp [specHid1, hty, hhid],
            by simp [specState1, hty, hhid], ?_, ?_, ?_⟩
          · simp [specMs1, hty, hhid, firstOccurAux, newEntries]
          · simp [specMs1, hty, hhid, firstOccurAux, newEntries]
          · intro n
            simp [specCs1, hty, hhid]
      | false =>
          rw [if_neg (fun hc => Bool.false_ne_true (hhid.symm.trans hc))] at h
          by_cases hws : st.wstate = PState.start
          · rw [if_pos hws] at h
            have hst' := (Except.ok.inj h).symm
            subst hst'
            refine ⟨by simp [specHid1, hty, hhid],
              by simp [specState1, hty, hhid], ?_, ?_, ?_⟩
            · simp [specMs1, hty, hhid, hws, firstOccurAux, newEntries]
            · simp [specMs1, hty, hhid, hws, firstOccurAux, newEntries]
            · intro n
              simp [specCs1, hty, hhid]
          · rw [if_neg hws] at h
            cases hpw : processWeaveLine cfg st.graph st.blockId
                st.wstate st.currentBlockId l.line l.pos with
            | mk g2 r2 =>
                cases r2 with
                | mk bid2 processed =>
                    rw [hpw] at h
                    dsimp only at h
                    have heff := processWeaveLine_effect cfg st.graph
                      st.blockId st.wstate st.currentBlockId l.line l.pos
                    rw [hpw] at heff
                    by_cases hwc : st.wstate = PState.inCode <;>
                      [rw [if_pos hwc] at h; rw [if_neg hwc] at h] <;>
                    · have hst' := (Except.ok.inj h).symm
                      subst hst'
                      refine ⟨by simp [specHid1, hty, hhid],
                        by simp [specState1, hty, hhid], ?_, ?_, ?_⟩
                      · have := heff.1
                        simpa [specMs1, hty, hhid, hws] using this
                      · have := heff.2.1
                        simpa [specMs1, hty, hhid, hws] using this
                      · intro n
                        have := heff.2.2 n
                        simpa [specCs1, hty, hhid] using this

theorem weaveStep_effect (cfg : WConfig) (st : WeaveState) (l : ScanLine)
    (st' : WeaveState) (h : weaveStep cfg st l = Except.ok st') :
    st'.isHiding = specHid1 st.isHiding l.line ∧
    st'.wstate = specState1 st.isHiding st.wstate l.line ∧
    skeletonG st'.graph = skeletonG (st.graph ++ newEntries st.blockId
      (firstOccurAux (st.graph.map Prod.fst)
        (specMs1 st.isHiding st.wstate l))) ∧
    st'.blockId = st.blockId +
      (firstOccurAux (st.graph.map Prod.fst)
        (specMs1 st.isHiding st.wstate l)).length ∧
    ∀ n, countOf st'.graph n = countOf st.graph n +
      ((specCs1 st.isHiding l).filter (fun c => c = n)).length := by
  rw [weaveStep_filename_reduce] at h
  set stf := if l.pos.filename ≠ st.currentFilename then
    { st with
      currentFilename := l.pos.filename
      out := st.out ++ lineCommandW cfg l.pos } else st with hstf
  have hcf : stf.currentFilename = l.pos.filename := by
    rw [hstf]
    by_cases hf : l.pos.filename ≠ st.currentFilename
    · rw [if_pos hf]
    · rw [if_neg hf]
      exact (not_not.mp hf).symm
  have hfg : stf.graph = st.graph := by rw [hstf]; split <;> rfl
  have hfb : stf.blockId = st.blockId := by rw [hstf]; split <;> rfl
  have hfh : stf.isHiding = st.isHiding := by rw [hstf]; split <;> rfl
  have hfw : stf.wstate = st.wstate := by rw [hstf]; split <;> rfl
  have hcore := weaveStep_effect_core cfg stf l st' hcf h
  rw [hfg, hfb, hfh, hfw] at hcore
  exact hcore

theorem exceptBind_ok {ε α β : Type} (a : α) (f : α → Except ε β) :
    (Except.ok a >>= f) = f a := rfl

theorem exceptBind_error {ε α β : Type} (e : ε) (f : α → Except ε β) :
    ((Except.error e : Except ε α) >>= f) = Except.error e := rfl

theorem weave_fold_inv (cfg : WConfig) :
    ∀ (stream : List ScanLine) (st st' : WeaveState),
    List.foldlM (weaveStep cfg) st stream = Except.ok st' →
    skeletonG st'.graph = skeletonG (st.graph ++ newEntries st.blockId
      (firstOccurAux (st.graph.map Prod.fst)
        (specScan st.isHiding st.wstate stream).1)) ∧
    st'.blockId = st.blockId +
      (firstOccurAux (st.graph.map Prod.fst)
        (specScan st.isHiding st.wstate stream).1).length ∧
    ∀ n, countOf st'.graph n = countOf st.graph n +
      ((specScan st.isHiding st.wstate stream).2.filter
        (fun c => c = n)).length := by
  intro stream
  induction stream with
  | nil =>
      intro st st' h
      have hst : st = st' := Except.ok.inj h
      subst hst
      refine ⟨?_, ?_, ?_⟩
      · simp [specScan, firstOccurAux, newEntries]
      · simp [specScan, firstOccurAux, newEntries]
      · intro n
        simp [specScan]
  | cons l rest ih =>
      intro st st' h
      rw [List.foldlM_cons] at h
      cases hstep : weaveStep cfg st l with
      | error e =>
          rw [hstep, exceptBind_error] at h
          exact absurd h (by simp)
      | ok st1 =>
          rw [hstep, exceptBind_ok] at h
          obtain ⟨hH, hW, hSk, hB, hC⟩ := weaveStep_effect cfg st l st1 hstep
          have hinv := ih st1 st' h
          rw [hH, hW] at hinv
          obtain ⟨iSk, iB, iC⟩ := hinv
          have hK1 : st1.graph.map Prod.fst =
              st.graph.map Prod.fst ++
                (firstOccurAux (st.graph.map Prod.fst)
                  (specMs1 st.isHiding st.wstate l)).map Prod.fst := by
            have hmk := congrArg (List.map Prod.fst) hSk
            rw [skel_keys, skel_keys] at hmk
            rw [hmk, List.map_append, newEntries_keys]
          have hcongr : firstOccurAux (st1.graph.map Prod.fst)
              (specScan (specHid1 st.isHiding l.line)
                (specState1 st.isHiding st.wstate l.line) rest).1 =
            firstOccurAux
              ((firstOccurAux (st.graph.map Prod.fst)
                  (specMs1 st.isHiding st.wstate l)).map Prod.fst ++
                st.graph.map Prod.fst)
              (specScan (specHid1 st.isHiding l.line)
                (specState1 st.isHiding st.wstate l.line) rest).1 := by
            refine firstOccurAux_congr (fun x => ?_) _
            rw [hK1]
            simp only [List.mem_append]
            tauto
          have hdec : firstOccurAux (st.graph.map Prod.fst)
              (specScan st.isHiding st.wstate (l :: rest)).1 =
            firstOccurAux (st.graph.map Prod.fst)
              (specMs1 st.isHiding st.wstate l) ++
            firstOccurAux
              ((firstOccurAux (st.graph.map Prod.fst)
                  (specMs1 st.isHiding st.wstate l)).map Prod.fst ++
                st.graph.map Prod.fst)
              (specScan (specHid1 st.isHiding l.line)
                (specState1 st.isHiding st.wstate l.line) rest).1 := by
            rw [specScan_cons]
            exact firstOccurAux_append _ _ _
          refine ⟨?_, ?_, ?_⟩
          · rw [skeletonG_append, hSk, hB, hcongr] at iSk
            rw [hdec, newEntries_append, ← List.append_assoc, skeletonG_append]
            rw [iSk, skeletonG_append]
          · rw [hB, hcongr] at iB
            rw [hdec, List.length_append]
            omega
          · intro n
            have hC1 := hC n
            have iC1 := iC n
            rw [specScan_cons]
            simp only [List.filter_append, List.length_append]
            omega

theorem pairwise_lt_range1 : ∀ (len s : Nat),
    List.Pairwise (fun a b => a < b) (List.range' s len) := by
  intro len
  induction len with
  | zero => intro s; exact List.Pairwise.nil
  | succ len ih =>
      intro s
      rw [List.range'_succ]
      refine List.Pairwise.cons (fun x hx => ?_) (ih (s + 1))
      have := List.mem_range'_1.mp hx
      omega

/-- A small weave configuration (same shape as the defaults) for
exercising the fragment-graph run. -/
def cfgC8 : WConfig :=
  ⟨str "S", str "SB", str "EB", str "ST", str "ET", str "[%s]", str "EC",
    str "@", str "[$blockid]", str "HASH", str "$1", str "", str ""⟩

/-- The state a successful weave run produced (with a fallback value for
the error case, unused under the theorems' hypotheses). -/
def runStateD (r : Except GoError WeaveState) : WeaveState :=
  match r with
  | Except.ok s => s
  | Except.error _ => ⟨false, false, PState.start, [], ⟨[]⟩, [], 0, -1, []⟩

/-- The number of `CodeStart` lines of a stream whose canonical name is
`n` — the quantity the claim equates with the definition count. -/
def codeStartCountOf (stream : List ScanLine) (n : Str) : Nat :=
  (stream.filter fun l =>
    match computeLineType l.line with
    | (LineType.codeStart, arg) => canonicalCodeName arg == n
    | _ => false).length

/-- A stream whose second definition of `a` sits behind `@glitter hide`. -/
def streamC8hide : List ScanLine :=
  [⟨⟨str "f.gw", 1⟩, str "@: t", 1⟩,
   ⟨⟨str "f.gw", 2⟩, str "<<a>>=", 1⟩,
   ⟨⟨str "f.gw", 3⟩, str "body <<b>>", 1⟩,
   ⟨⟨str "f.gw", 4⟩, str "@glitter hide", 1⟩,
   ⟨⟨str "f.gw", 5⟩, str "<<a>>=", 1⟩,
   ⟨⟨str "f.gw", 6⟩, str "x", 1⟩]

/-- C8 (counterexample): with a second `<<a>>=` line behind
`@glitter hide`, the weave run completes with definition count 1 for
`a`, but the stream has 2 `CodeStart` lines with canonical name `a` —
the count tracks only processed (non-hidden) definitions, not all
`CodeStart` lines as claimed. -/
theorem C8_counterexample :
    isOkE (weaveRun cfgC8 streamC8hide) = true ∧
    countOf (runGraph (weaveRun cfgC8 streamC8hide)) (str "a") = 1 ∧
    codeStartCountOf streamC8hide (str "a") = 2 := by
  decide

/-- C8 (amended): over any completed weave run, reading the stream with
the hiding flag and parser state (`specScan`): the graph's names are
exactly the distinct canonical names mentioned on processed lines, in
first-mention order; each carries the position of that first processed
mention; the assigned numbers are `1, 2, 3, ...` in first-mention order
(hence strictly increasing); and each name's definition count equals
the number of *processed* (non-hidden) `CodeStart` lines with that
canonical name — hidden lines and preamble `Other` lines register
nothing. -/
theorem C8_fragment_graph (cfg : WConfig) (stream : List ScanLine)
    (st' : WeaveState) (h : weaveRun cfg stream = Except.ok st') :
    st'.graph.map Prod.fst =
      (firstOccurAux [] (specScan false PState.start stream).1).map
        Prod.fst ∧
    st'.graph.map (fun p => p.2.firstMention) =
      (firstOccurAux [] (specScan false PState.start stream).1).map
        Prod.snd ∧
    st'.graph.map (fun p => p.2.firstBlockNum) =
      List.range' 1
        (firstOccurAux [] (specScan false PState.start stream).1).length ∧
    List.Pairwise (fun a b => a < b)
      (st'.graph.map (fun p => p.2.firstBlockNum)) ∧
    ∀ n, countOf st'.graph n =
      ((specScan false PState.start stream).2.filter
        (fun c => c = n)).length := by
  rw [weaveRun] at h
  cases hfold : List.foldlM (weaveStep cfg)
      (⟨false, false, PState.start, [], ⟨[]⟩, [], 0, -1,
        cfg.startTpl ++ ['\n']⟩ : WeaveState) stream with
  | error e =>
      rw [hfold] at h
      exact absurd h (by simp)
  | ok stf =>
      rw [hfold] at h
      dsimp only at h
      cases hweb : weaveEndBlockText cfg stf with
      | none =>
          rw [hweb] at h
          exact absurd h (by simp)
      | some pr =>
          rw [hweb] at h
          rcases pr with ⟨closing, imp1⟩
          dsimp only at h
          have hst' := (Except.ok.inj h).symm
          subst hst'
          obtain ⟨iSk, iB, iC⟩ := weave_fold_inv cfg stream _ stf hfold
          dsimp only [List.nil_append, List.map_nil] at iSk iB iC
          refine ⟨?_, ?_, ?_, ?_, ?_⟩
          · have hmk := congrArg (List.map Prod.fst) iSk
            rw [skel_keys, skel_keys, newEntries_keys] at hmk
            exact hmk
          · have hmk := congrArg (List.map (fun q => q.2.2)) iSk
            rw [skel_mentions, skel_mentions, newEntries_mentions] at hmk
            exact hmk
          · have hmk := congrArg (List.map (fun q => q.2.1)) iSk
            rw [skel_nums, skel_nums, newEntries_nums] at hmk
            simpa using hmk
          · have hmk := congrArg (List.map (fun q => q.2.1)) iSk
            rw [skel_nums, skel_nums, newEntries_nums] at hmk
            show List.Pairwise (fun a b => a < b)
              (stf.graph.map (fun p => p.2.firstBlockNum))
            rw [hmk]
            exact pairwise_lt_range1 _ _
          · intro n
            have := iC n
            simpa [countOf, alookup] using this

/-- A fully visible stream: a text line mentioning `alpha`, a code
block defining `alpha` whose body references `beta`, and a closing text
line. -/
def streamC8w : List ScanLine :=
  [⟨⟨str "f.gw", 1⟩, str "@: intro <<alpha>>", 1⟩,
   ⟨⟨str "f.gw", 2⟩, str "<<alpha>>=", 1⟩,
   ⟨⟨str "f.gw", 3⟩, str "y := <<beta>>", 1⟩,
   ⟨⟨str "f.gw", 4⟩, str "@: done", 1⟩]

/-- Witness for `C8_fragment_graph` on `streamC8w`: the graph keys are
the first-mention order of the scan, and the assigned numbers are
`1, 2, ...`. -/
theorem C8_witness :
    (runStateD (weaveRun cfgC8 streamC8w)).graph.map Prod.fst =
      (firstOccurAux []
        (specScan false PState.start streamC8w).1).map Prod.fst ∧
    (runStateD (weaveRun cfgC8 streamC8w)).graph.map
        (fun p => p.2.firstBlockNum) =
      List.range' 1 (firstOccurAux []
        (specScan false PState.start streamC8w).1).length :=
  ⟨(C8_fragment_graph cfgC8 streamC8w
      (runStateD (weaveRun cfgC8 streamC8w)) (by rfl)).1,
   (C8_fragment_graph cfgC8 streamC8w
      (runStateD (weaveRun cfgC8 streamC8w)) (by rfl)).2.2.1⟩

end Glitter
